import Mathlib

/-!
Shallow embedding of the point-sampling engine of `ViaStitching/FillArea.py`
(classes `FillStrategy`, `GridFillStrategy`, `StarFillStrategy`,
`BridsonFillStrategy`), together with proofs about it.

Modelling conventions, fixed once for the whole file:

* Board coordinates are integers (`ℤ`), as in the source (KiCad internal units).
* Python float arithmetic is idealised as exact rational arithmetic (`ℚ`).
* Python `int(x)` on a float is truncation toward zero: `truncQ`.
* Python 3 `round(x)` is round-half-to-even: `pyRound`.
* `GridFillStrategy` is parametrised by the rational `centre_spacing` itself.
* `StarFillStrategy` and `BridsonFillStrategy` use `centre_spacing` only
  through `spacing = centre_spacing / sqrt 2` (star pitch, Bridson cell size)
  and through its square (the Bridson neighbour test compares
  `sqrt d < centre_spacing`, i.e. `d < centre_spacing ^ 2 = 2 * cellSize ^ 2`
  on the exact reals).  The embedding is therefore parametrised by the
  rational value `c = centre_spacing / sqrt 2`; `centre_spacing` itself is
  `Real.sqrt 2 * c` and appears only in theorem statements.
* The process-wide random state consumed by `BridsonFillStrategy` is an
  oracle: a stream of seed fractions `u, v` (the two `random.random()` calls
  of `_generate_random_point_in_cell`, values in `[0, 1)`) and a stream of
  integer offspring offsets (the rounded displacement
  `round(r*sin th), round(r*cos th)` of `_generate_bridson_points`; the base
  point is an integer, so rounding the sum is adding the rounded offset).
  Every theorem quantifies over all such streams.
-/

/-
The arithmetic of `ℚ` in core Lean is marked `@[irreducible]`, which blocks
elaborator-side evaluation (`decide`) of the executable definitions below on
concrete inputs.  Restore semireducibility so that concrete runs of the
embedded strategies can be evaluated by `decide`; this changes nothing about
the functions themselves.
-/
set_option allowUnsafeReducibility true in
attribute [semireducible] Rat.add Rat.mul Rat.sub Rat.neg Rat.inv Rat.div
  Rat.floor

/-- An integer board point `(x, y)`. -/
abbrev Pt : Type := ℤ × ℤ

/-- Python 3 `round`: round half to even (banker's rounding), as used by
`int(round(...))` throughout the source. -/
def pyRound (q : ℚ) : ℤ :=
  if q - (⌊q⌋ : ℚ) < 1/2 then ⌊q⌋
  else if 1/2 < q - (⌊q⌋ : ℚ) then ⌊q⌋ + 1
  else if ⌊q⌋ % 2 = 0 then ⌊q⌋ else ⌊q⌋ + 1

/-- Python `int()` on a float: truncation toward zero. -/
def truncQ (q : ℚ) : ℤ :=
  if 0 ≤ q then ⌊q⌋ else -⌊-q⌋

theorem pyRound_le (q : ℚ) : (pyRound q : ℚ) ≤ q + 1/2 := by
  unfold pyRound
  have hf : (⌊q⌋ : ℚ) ≤ q := Int.floor_le q
  have hf2 : q - 1 < (⌊q⌋ : ℚ) := Int.sub_one_lt_floor q
  split
  · linarith
  · split
    · push_cast; linarith
    · split
      · linarith
      · push_cast
        rename_i h1 h2 _
        have : q - (⌊q⌋ : ℚ) = 1/2 := le_antisymm (not_lt.mp h2) (not_lt.mp h1)
        linarith

theorem le_pyRound (q : ℚ) : q - 1/2 ≤ (pyRound q : ℚ) := by
  unfold pyRound
  have hf : (⌊q⌋ : ℚ) ≤ q := Int.floor_le q
  have hf2 : q - 1 < (⌊q⌋ : ℚ) := Int.sub_one_lt_floor q
  split
  · rename_i h1
    linarith
  · split
    · push_cast; linarith
    · split
      · rename_i h1 h2 _
        have : q - (⌊q⌋ : ℚ) = 1/2 := le_antisymm (not_lt.mp h2) (not_lt.mp h1)
        linarith
      · push_cast
        rename_i h1 h2 _
        have : q - (⌊q⌋ : ℚ) = 1/2 := le_antisymm (not_lt.mp h2) (not_lt.mp h1)
        linarith

theorem pyRound_intCast (n : ℤ) : pyRound (n : ℚ) = n := by
  unfold pyRound
  simp [Int.floor_intCast]

theorem truncQ_eq_floor_of_nonneg {q : ℚ} (h : 0 ≤ q) : truncQ q = ⌊q⌋ := by
  simp [truncQ, h]

theorem truncQ_nonpos {q : ℚ} (h : q ≤ 0) : truncQ q ≤ 0 := by
  unfold truncQ
  split
  · have h0 : (0:ℚ) ≤ q := by assumption
    have hq : q = 0 := le_antisymm h h0
    simp [hq]
  · have h0 : (0:ℚ) ≤ -q := by linarith
    have h1 : (0:ℤ) ≤ ⌊-q⌋ := Int.floor_nonneg.mpr h0
    omega

/-- Truncation bound for nonnegative arguments (the regime all quantitative
uses fall in): `truncQ q ≤ q`. -/
theorem truncQ_le {q : ℚ} (h : 0 ≤ q) : (truncQ q : ℚ) ≤ q := by
  rw [truncQ_eq_floor_of_nonneg h]; exact Int.floor_le q

/-! ### `GridFillStrategy.generate_points`

```python
x_steps = int((self.x_range[1] - self.x_range[0]) / self.centre_spacing) + 1
y_steps = int((self.y_range[1] - self.y_range[0]) / self.centre_spacing) + 1
points = []
for x_i in range(x_steps):
    for y_i in range(y_steps):
        x = int(round(x_i * self.centre_spacing + self.x_range[0]))
        y = int(round(y_i * self.centre_spacing + self.y_range[0]))
        if self.valid_predicate(x, y):
            points.append((x, y))
return points
```
-/

/-- Number of loop iterations produced by `range(int((hi - lo) / pitch) + 1)`:
negative arguments to `range` give an empty iteration. -/
def stepCount (lo hi : ℤ) (pitch : ℚ) : ℕ :=
  (truncQ (((hi - lo : ℤ) : ℚ) / pitch) + 1).toNat

def gridGeneratePoints (x0 x1 y0 y1 : ℤ) (pred : ℤ → ℤ → Bool) (s : ℚ) :
    List Pt :=
  (List.range (stepCount x0 x1 s)).foldl (fun pts (xi : ℕ) =>
    (List.range (stepCount y0 y1 s)).foldl (fun pts (yi : ℕ) =>
      let x := pyRound ((xi : ℚ) * s + (x0 : ℚ))
      let y := pyRound ((yi : ℚ) * s + (y0 : ℚ))
      if pred x y then pts ++ [(x, y)] else pts) pts) []

/-! ### `StarFillStrategy.generate_points`

```python
spacing = self.centre_spacing / math.sqrt(2)
x_steps = int((self.x_range[1] - self.x_range[0]) / (2 * spacing)) + 1
y_steps = int((self.y_range[1] - self.y_range[0]) / spacing) + 1
points = []
for x_i in range(x_steps):
    for y_i in range(y_steps):
        x = int(round(x_i * 2 * spacing + self.x_range[0] + (spacing if y_i % 2 else 0.0)))
        y = int(round(y_i * spacing + self.y_range[0]))
        if self.valid_predicate(x, y):
            points.append((x, y))
return points
```

The parameter `s` below is the local variable `spacing = centre_spacing / sqrt 2`
(Python `y_i % 2` is truthy exactly when `y_i % 2 = 1`).
-/

def starGeneratePoints (x0 x1 y0 y1 : ℤ) (pred : ℤ → ℤ → Bool) (s : ℚ) :
    List Pt :=
  (List.range (stepCount x0 x1 (2 * s))).foldl (fun pts (xi : ℕ) =>
    (List.range (stepCount y0 y1 s)).foldl (fun pts (yi : ℕ) =>
      let x := pyRound ((xi : ℚ) * 2 * s + (x0 : ℚ) +
        (if yi % 2 = 1 then s else 0))
      let y := pyRound ((yi : ℚ) * s + (y0 : ℚ))
      if pred x y then pts ++ [(x, y)] else pts) pts) []

/-! Helper: the append-accumulating double loop equals a nested `flatMap`. -/

theorem foldl_ite_append {α β : Type} (l : List α) (f : α → β) (b : α → Bool) :
    ∀ init : List β,
      l.foldl (fun acc a => if b a then acc ++ [f a] else acc) init =
        init ++ l.flatMap (fun a => if b a then [f a] else []) := by
  induction l with
  | nil => intro init; simp
  | cons a t ih =>
      intro init
      simp only [List.foldl_cons, List.flatMap_cons]
      cases hba : b a <;> simp [hba, ih]

theorem double_loop_eq {α β γ : Type} (l₁ : List α) (l₂ : List β)
    (f : α → β → γ) (b : α → β → Bool) :
    ∀ init : List γ,
      l₁.foldl (fun acc x =>
        l₂.foldl (fun acc y => if b x y then acc ++ [f x y] else acc) acc) init =
      init ++ l₁.flatMap (fun x =>
        l₂.flatMap (fun y => if b x y then [f x y] else [])) := by
  induction l₁ with
  | nil => intro init; simp
  | cons a t ih =>
      intro init
      simp only [List.foldl_cons, List.flatMap_cons]
      rw [foldl_ite_append, ih, List.append_assoc]

/-- The grid double loop, as a nested `flatMap`. -/
theorem gridGeneratePoints_eq_flatMap (x0 x1 y0 y1 : ℤ)
    (pred : ℤ → ℤ → Bool) (s : ℚ) :
    gridGeneratePoints x0 x1 y0 y1 pred s =
      (List.range (stepCount x0 x1 s)).flatMap (fun xi =>
        (List.range (stepCount y0 y1 s)).flatMap (fun yi =>
          if pred (pyRound ((xi : ℚ) * s + (x0 : ℚ)))
              (pyRound ((yi : ℚ) * s + (y0 : ℚ))) then
            [(pyRound ((xi : ℚ) * s + (x0 : ℚ)),
              pyRound ((yi : ℚ) * s + (y0 : ℚ)))]
          else [])) := by
  have h := double_loop_eq (List.range (stepCount x0 x1 s))
    (List.range (stepCount y0 y1 s))
    (fun xi yi => (pyRound ((xi : ℚ) * s + (x0 : ℚ)),
      pyRound ((yi : ℚ) * s + (y0 : ℚ))))
    (fun xi yi => pred (pyRound ((xi : ℚ) * s + (x0 : ℚ)))
      (pyRound ((yi : ℚ) * s + (y0 : ℚ)))) []
  unfold gridGeneratePoints
  simpa using h

/-- The star double loop, as a nested `flatMap`. -/
theorem starGeneratePoints_eq_flatMap (x0 x1 y0 y1 : ℤ)
    (pred : ℤ → ℤ → Bool) (s : ℚ) :
    starGeneratePoints x0 x1 y0 y1 pred s =
      (List.range (stepCount x0 x1 (2 * s))).flatMap (fun xi =>
        (List.range (stepCount y0 y1 s)).flatMap (fun yi =>
          if pred (pyRound ((xi : ℚ) * 2 * s + (x0 : ℚ) +
                (if yi % 2 = 1 then s else 0)))
              (pyRound ((yi : ℚ) * s + (y0 : ℚ))) then
            [(pyRound ((xi : ℚ) * 2 * s + (x0 : ℚ) +
                (if yi % 2 = 1 then s else 0)),
              pyRound ((yi : ℚ) * s + (y0 : ℚ)))]
          else [])) := by
  have h := double_loop_eq (List.range (stepCount x0 x1 (2 * s)))
    (List.range (stepCount y0 y1 s))
    (fun xi yi => (pyRound ((xi : ℚ) * 2 * s + (x0 : ℚ) +
        (if yi % 2 = 1 then s else 0)),
      pyRound ((yi : ℚ) * s + (y0 : ℚ))))
    (fun xi yi => pred (pyRound ((xi : ℚ) * 2 * s + (x0 : ℚ) +
        (if yi % 2 = 1 then s else 0)))
      (pyRound ((yi : ℚ) * s + (y0 : ℚ)))) []
  unfold starGeneratePoints
  simpa using h

/-! ### `BridsonFillStrategy`

```python
def __init__(self, *args, **kwargs):
    super().__init__(*args, **kwargs)
    self.k = 10
    self._cell_size = self.centre_spacing / math.sqrt(2)
    self._x_steps = int((self.x_range[1] - self.x_range[0]) / self._cell_size)
    self._y_steps = int((self.y_range[1] - self.y_range[0]) / self._cell_size)
    self._checked = [[False] * self._x_steps for i in range(self._y_steps)]
    self._points = [[None] * self._x_steps for i in range(self._y_steps)]
```

The parameter `c` is `self._cell_size = centre_spacing / sqrt 2`; the squared
spacing `centre_spacing ** 2` is exactly `2 * c ^ 2`.  The nested mutable
lists `_checked` / `_points` are modelled as total functions `row -> col -> _`
(reads only ever happen at indices bounds-checked against `_x_steps` /
`_y_steps`, exactly as in the source).
-/

/-- `self.k = 10`. -/
def bridsonK : ℕ := 10

/-- Construction parameters of a `BridsonFillStrategy` (`c` is the derived
`_cell_size`). -/
structure BridsonParams where
  x0 : ℤ
  x1 : ℤ
  y0 : ℤ
  y1 : ℤ
  pred : ℤ → ℤ → Bool
  c : ℚ

/-- `self._x_steps = int((x_range[1] - x_range[0]) / cell_size)` (no `+ 1`). -/
def BridsonParams.xStepsZ (P : BridsonParams) : ℤ :=
  truncQ (((P.x1 - P.x0 : ℤ) : ℚ) / P.c)

def BridsonParams.yStepsZ (P : BridsonParams) : ℤ :=
  truncQ (((P.y1 - P.y0 : ℤ) : ℚ) / P.c)

/-- Number of grid columns actually iterated (`range` of a negative is
empty). -/
def BridsonParams.xStepsN (P : BridsonParams) : ℕ := P.xStepsZ.toNat

def BridsonParams.yStepsN (P : BridsonParams) : ℕ := P.yStepsZ.toNat

/-- The process-wide random source, abstracted as oracle streams indexed by
the number of draws made so far: `cellU n` is the pair of `random.random()`
fractions of the `n`-th primitive draw (used by
`_generate_random_point_in_cell`), `offD n` is the rounded integer offset
`(round(r*sin th), round(r*cos th))` produced by the `n`-th draw inside
`_generate_bridson_points`. -/
structure RandSrc where
  cellU : ℕ → ℚ × ℚ
  offD : ℕ → ℤ × ℤ

/-- The mutable state of one `generate_points()` run: the two grids (instance
attributes `_points`, `_checked`), the position `n` in the random stream, an
instrumentation counter `npred` for the number of `valid_predicate`
evaluations, and a flag `starved` recording whether the (provably sufficient)
fuel of the active-list drain loop ever ran out. -/
structure BState where
  pts : ℕ → ℕ → Option Pt
  chk : ℕ → ℕ → Bool
  n : ℕ
  npred : ℕ
  starved : Bool

/-- Pointwise update of a grid of points (row `i`, column `j`). -/
def setPt (g : ℕ → ℕ → Option Pt) (i j : ℕ) (v : Option Pt) :
    ℕ → ℕ → Option Pt :=
  fun i' j' => if i' = i ∧ j' = j then v else g i' j'

/-- Pointwise update of the checked grid. -/
def setChk (g : ℕ → ℕ → Bool) (i j : ℕ) (v : Bool) : ℕ → ℕ → Bool :=
  fun i' j' => if i' = i ∧ j' = j then v else g i' j'

/-- `_cell_index`: `x_i = math.floor((point[0] - x_range[0]) / cell_size)`. -/
def cellIdxX (P : BridsonParams) (x : ℤ) : ℤ := ⌊((x - P.x0 : ℤ) : ℚ) / P.c⌋

def cellIdxY (P : BridsonParams) (y : ℤ) : ℤ := ⌊((y - P.y0 : ℤ) : ℚ) / P.c⌋

/-- The fixed 20-cell neighbour kernel of `_is_valid` (`OFFSETS`). -/
def OFFSETS : List (ℤ × ℤ) :=
  [(-1, -1), (-1, 0), (-1, 1), (0, 1), (1, 1), (1, 0), (1, -1), (0, -1),
   (-2, -1), (-2, 0), (-2, 1), (-1, 2), (0, 2), (1, 2), (2, 1), (2, 0),
   (2, -1), (1, -2), (0, -2), (-1, -2)]

/-- Squared Euclidean distance between two integer points.  The source
compares `math.sqrt(distSq) < centre_spacing`; on exact reals this is
`distSq < centre_spacing ^ 2 = 2 * c ^ 2`. -/
def distSq (p q : Pt) : ℤ := (q.1 - p.1) ^ 2 + (q.2 - p.2) ^ 2

/-- The neighbour scan of `_is_valid`: `true` iff no occupied kernel cell
holds a point at distance `< centre_spacing`. -/
def neighborClear (P : BridsonParams) (pts : ℕ → ℕ → Option Pt)
    (xi yi : ℤ) (p : Pt) : Bool :=
  OFFSETS.all (fun o =>
    let pxi := xi + o.1
    let pyi := yi + o.2
    if pxi < 0 ∨ P.xStepsZ ≤ pxi ∨ pyi < 0 ∨ P.yStepsZ ≤ pyi then true
    else
      match pts pyi.toNat pxi.toNat with
      | none => true
      | some nbr => decide (¬ ((distSq nbr p : ℚ) < 2 * P.c ^ 2)))

/-- `_is_valid(point)`, instrumented: first component is the verdict, second
records whether the final `valid_predicate` call was reached (used only to
count predicate evaluations; the verdict matches the source exactly). -/
def isValidC (P : BridsonParams) (pts : ℕ → ℕ → Option Pt) (p : Pt) :
    Bool × Bool :=
  let xi := cellIdxX P p.1
  let yi := cellIdxY P p.2
  if xi < 0 ∨ P.xStepsZ ≤ xi ∨ yi < 0 ∨ P.yStepsZ ≤ yi then (false, false)
  else if (pts yi.toNat xi.toNat).isSome then (false, false)
  else if neighborClear P pts xi yi p then (P.pred p.1 p.2, true)
  else (false, false)

/-- `_generate_random_point_in_cell(i, j)` at stream position `n`:
`(int(round(x_range[0] + (j + u) * cell_size)), ...)`. -/
def seedPoint (P : BridsonParams) (src : RandSrc) (n : ℕ) (i j : ℕ) : Pt :=
  (pyRound ((P.x0 : ℚ) + ((j : ℚ) + (src.cellU n).1) * P.c),
   pyRound ((P.y0 : ℚ) + ((i : ℚ) + (src.cellU n).2) * P.c))

/-- `_generate_bridson_points(base)`: `k` candidates, each `base` plus a
rounded random annulus offset from the oracle. -/
def offspringPoints (src : RandSrc) (n : ℕ) (base : Pt) : List Pt :=
  (List.range bridsonK).map (fun t =>
    (base.1 + (src.offD (n + t)).1, base.2 + (src.offD (n + t)).2))

/-- The `for point in random_points:` body of the drain loop: validate each
candidate in order against the current grid; accepted candidates are stored
in their own cell, marked checked, and pushed on the active list. -/
def processCands (P : BridsonParams) :
    BState → List Pt → List Pt → BState × List Pt
  | st, active, [] => (st, active)
  | st, active, cand :: cs =>
      let vc := isValidC P st.pts cand
      let st1 : BState := { st with npred := st.npred + (if vc.2 then 1 else 0) }
      if vc.1 then
        let xi := (cellIdxX P cand.1).toNat
        let yi := (cellIdxY P cand.2).toNat
        processCands P
          { st1 with
            pts := setPt st1.pts yi xi (some cand),
            chk := setChk st1.chk yi xi true }
          (cand :: active) cs
      else processCands P st1 active cs

/-- The `while active:` loop.  The active list is a stack (Python
`append`/`pop`), modelled with the head as the top.  Fuel is an upper bound
on the number of iterations; callers pass `xStepsN * yStepsN + |active|`,
which is provably sufficient (each iteration pops one point, and every push
fills a previously empty cell), so the `starved` branch is dead — a fact
proved below, not assumed. -/
def drain (P : BridsonParams) (src : RandSrc) :
    ℕ → BState → List Pt → BState
  | 0, st, active => if active.isEmpty then st else { st with starved := true }
  | fuel + 1, st, active =>
      match active with
      | [] => st
      | base :: rest =>
          let st1 : BState := { st with n := st.n + bridsonK }
          let pr := processCands P st1 rest (offspringPoints src st.n base)
          drain P src fuel pr.1 pr.2

/-- The up-to-`k` seeding attempts for an unchecked cell `(i, j)`
(`for _ in range(self.k): ...`); returns the state and the accepted seed, if
any.  The accepted seed is stored at `_points[i][j]` — the scanned cell, not
the cell of its own coordinates, exactly as in the source. -/
def seedTries (P : BridsonParams) (src : RandSrc) (i j : ℕ) :
    ℕ → BState → BState × Option Pt
  | 0, st => (st, none)
  | t + 1, st =>
      let p := seedPoint P src st.n i j
      let st1 : BState := { st with n := st.n + 1 }
      let vc := isValidC P st1.pts p
      let st2 : BState :=
        { st1 with npred := st1.npred + (if vc.2 then 1 else 0) }
      if vc.1 then
        ({ st2 with pts := setPt st2.pts i j (some p) }, some p)
      else seedTries P src i j t st2

/-- One iteration of the outer row-major scan: skip checked cells; otherwise
seed, mark checked, and drain the active list completely.  (In the source the
active list is a single variable that is empty at every outer iteration
boundary — the `while` drains it before the loop advances — so it is passed
to `drain` locally.) -/
def outerCell (P : BridsonParams) (src : RandSrc) (st : BState)
    (ij : ℕ × ℕ) : BState :=
  if st.chk ij.1 ij.2 then st
  else
    let sr := seedTries P src ij.1 ij.2 bridsonK st
    let st1 : BState := { sr.1 with chk := setChk sr.1.chk ij.1 ij.2 true }
    let active0 : List Pt := sr.2.toList
    drain P src (P.xStepsN * P.yStepsN + active0.length) st1 active0

/-- The row-major list of grid cells `(i, j)` scanned by the outer loops. -/
def allCells (P : BridsonParams) : List (ℕ × ℕ) :=
  (List.range P.yStepsN).flatMap (fun i =>
    (List.range P.xStepsN).map (fun j => (i, j)))

/-- A constructed `BridsonFillStrategy` object: parameters plus the two grid
attributes created in `__init__` (and mutated, not recreated, by
`generate_points`). -/
structure BridsonInstance where
  P : BridsonParams
  pts : ℕ → ℕ → Option Pt
  chk : ℕ → ℕ → Bool

/-- `BridsonFillStrategy.__init__`: fresh all-empty, all-unchecked grids. -/
def BridsonInstance.init (P : BridsonParams) : BridsonInstance :=
  ⟨P, fun _ _ => none, fun _ _ => false⟩

/-- The full sampling pass of `generate_points()` on a given instance. -/
def bridsonRunFrom (inst : BridsonInstance) (src : RandSrc) : BState :=
  (allCells inst.P).foldl (outerCell inst.P src)
    { pts := inst.pts, chk := inst.chk, n := 0, npred := 0, starved := false }

/-- The final collection loop of `generate_points()`:
`for row in self._points: for point in row: if point: points.append(point)`. -/
def collectPoints (P : BridsonParams) (pts : ℕ → ℕ → Option Pt) : List Pt :=
  (List.range P.yStepsN).foldl (fun acc i =>
    (List.range P.xStepsN).foldl (fun acc j =>
      (pts i j).elim acc (fun p => acc ++ [p])) acc) []

/-- `BridsonFillStrategy.generate_points()` as a method: returns the mutated
instance together with the point list. -/
def bridsonGeneratePointsM (inst : BridsonInstance) (src : RandSrc) :
    BridsonInstance × List Pt :=
  let st := bridsonRunFrom inst src
  (⟨inst.P, st.pts, st.chk⟩, collectPoints inst.P st.pts)

/-- The final state of a first `generate_points()` call on a freshly
constructed strategy. -/
def bridsonRun (P : BridsonParams) (src : RandSrc) : BState :=
  bridsonRunFrom (BridsonInstance.init P) src

/-- The point list returned by a first `generate_points()` call on a freshly
constructed strategy. -/
def bridsonGeneratePoints (P : BridsonParams) (src : RandSrc) : List Pt :=
  (bridsonGeneratePointsM (BridsonInstance.init P) src).2

/-! ### Basic facts about the collection loop and grid updates -/

theorem foldl_opt_append {α β : Type} (l : List α) (f : α → Option β) :
    ∀ init : List β,
      l.foldl (fun acc a => (f a).elim acc (fun p => acc ++ [p])) init =
      init ++ l.flatMap (fun a => (f a).toList) := by
  induction l with
  | nil => intro init; simp
  | cons a t ih =>
      intro init
      simp only [List.foldl_cons, List.flatMap_cons]
      cases hfa : f a <;> simp [hfa, ih]

theorem double_loop_opt {α β γ : Type} (l₁ : List α) (l₂ : List β)
    (f : α → β → Option γ) :
    ∀ init : List γ,
      l₁.foldl (fun acc x =>
        l₂.foldl (fun acc y => (f x y).elim acc (fun p => acc ++ [p])) acc)
        init =
      init ++ l₁.flatMap (fun x => l₂.flatMap (fun y => (f x y).toList)) := by
  induction l₁ with
  | nil => intro init; simp
  | cons a t ih =>
      intro init
      simp only [List.foldl_cons, List.flatMap_cons]
      rw [foldl_opt_append, ih, List.append_assoc]

/-- The final collection loop, as a row-major `flatMap`. -/
theorem collectPoints_eq (P : BridsonParams) (pts : ℕ → ℕ → Option Pt) :
    collectPoints P pts =
      (List.range P.yStepsN).flatMap (fun i =>
        (List.range P.xStepsN).flatMap (fun j => (pts i j).toList)) := by
  unfold collectPoints
  have h := double_loop_opt (List.range P.yStepsN) (List.range P.xStepsN)
    (fun i j => pts i j) []
  simpa using h

theorem mem_collectPoints {P : BridsonParams} {pts : ℕ → ℕ → Option Pt}
    {p : Pt} :
    p ∈ collectPoints P pts ↔
      ∃ i j, i < P.yStepsN ∧ j < P.xStepsN ∧ pts i j = some p := by
  rw [collectPoints_eq]
  simp only [List.mem_flatMap, List.mem_range, Option.mem_toList]
  constructor
  · rintro ⟨i, hi, j, hj, hp⟩
    exact ⟨i, j, hi, hj, Option.mem_def.mp hp⟩
  · rintro ⟨i, j, hi, hj, hp⟩
    exact ⟨i, hi, j, hj, Option.mem_def.mpr hp⟩

theorem setPt_eq (g : ℕ → ℕ → Option Pt) (i j : ℕ) (v : Option Pt) :
    setPt g i j v i j = v := by simp [setPt]

theorem setPt_ne (g : ℕ → ℕ → Option Pt) (i j : ℕ) (v : Option Pt)
    {i' j' : ℕ} (h : ¬(i' = i ∧ j' = j)) : setPt g i j v i' j' = g i' j' := by
  simp [setPt, h]

/-! ### A generic invariant on stored points

Every write of a point into the grid — by the seed loop or by the offspring
loop — stores a point that has just passed `_is_valid` against the current
grid.  Any property that `_is_valid` forces on its argument is therefore an
invariant of all stored points. -/

/-- `R` holds of every stored point. -/
def PtsInv (R : Pt → Prop) (pts : ℕ → ℕ → Option Pt) : Prop :=
  ∀ i j p, pts i j = some p → R p

/-- `R` is a consequence of passing `_is_valid` (against any grid). -/
def ValidApproved (P : BridsonParams) (R : Pt → Prop) : Prop :=
  ∀ pts q, (isValidC P pts q).1 = true → R q

theorem ptsInv_setPt {R : Pt → Prop} {pts : ℕ → ℕ → Option Pt}
    (h : PtsInv R pts) {q : Pt} (hq : R q) (i j : ℕ) :
    PtsInv R (setPt pts i j (some q)) := by
  intro i' j' p hp
  by_cases hij : i' = i ∧ j' = j
  · rw [hij.1, hij.2, setPt_eq] at hp
    cases hp
    exact hq
  · rw [setPt_ne pts i j _ hij] at hp
    exact h i' j' p hp

theorem ptsInv_seedTries {P : BridsonParams} {src : RandSrc} {R : Pt → Prop}
    (hR : ValidApproved P R) (i j : ℕ) :
    ∀ (t : ℕ) (st : BState), PtsInv R st.pts →
      PtsInv R (seedTries P src i j t st).1.pts := by
  intro t
  induction t with
  | zero => intro st h; exact h
  | succ t ih =>
      intro st h
      simp only [seedTries]
      split
      · rename_i hv
        exact ptsInv_setPt h (hR _ _ hv) i j
      · exact ih _ h

theorem ptsInv_processCands {P : BridsonParams} {R : Pt → Prop}
    (hR : ValidApproved P R) :
    ∀ (cs : List Pt) (st : BState) (active : List Pt), PtsInv R st.pts →
      PtsInv R (processCands P st active cs).1.pts := by
  intro cs
  induction cs with
  | nil => intro st active h; exact h
  | cons cand cs ih =>
      intro st active h
      simp only [processCands]
      split
      · rename_i hv
        exact ih _ _ (ptsInv_setPt h (hR _ _ hv) _ _)
      · exact ih _ _ h

theorem ptsInv_drain {P : BridsonParams} {src : RandSrc} {R : Pt → Prop}
    (hR : ValidApproved P R) :
    ∀ (fuel : ℕ) (st : BState) (active : List Pt), PtsInv R st.pts →
      PtsInv R (drain P src fuel st active).pts := by
  intro fuel
  induction fuel with
  | zero =>
      intro st active h
      simp only [drain]
      split <;> exact h
  | succ fuel ih =>
      intro st active h
      cases active with
      | nil => simp only [drain]; exact h
      | cons base rest =>
          simp only [drain]
          exact ih _ _ (ptsInv_processCands hR _ _ _ h)

theorem ptsInv_outerCell {P : BridsonParams} {src : RandSrc} {R : Pt → Prop}
    (hR : ValidApproved P R) (st : BState) (ij : ℕ × ℕ)
    (h : PtsInv R st.pts) : PtsInv R (outerCell P src st ij).pts := by
  simp only [outerCell]
  split
  · exact h
  · exact ptsInv_drain hR _ _ _ (ptsInv_seedTries hR _ _ _ _ h)

theorem ptsInv_foldl {P : BridsonParams} {src : RandSrc} {R : Pt → Prop}
    (hR : ValidApproved P R) :
    ∀ (cells : List (ℕ × ℕ)) (st : BState), PtsInv R st.pts →
      PtsInv R (cells.foldl (outerCell P src) st).pts := by
  intro cells
  induction cells with
  | nil => intro st h; exact h
  | cons ij cells ih =>
      intro st h
      simp only [List.foldl_cons]
      exact ih _ (ptsInv_outerCell hR _ _ h)

theorem ptsInv_run {P : BridsonParams} {src : RandSrc} (R : Pt → Prop)
    (hR : ValidApproved P R) :
    PtsInv R (bridsonRun P src).pts := by
  unfold bridsonRun bridsonRunFrom
  refine ptsInv_foldl hR _ _ ?_
  intro i j p hp
  simp [BridsonInstance.init] at hp

/-- What passing `_is_valid` says about the candidate itself. -/
theorem isValidC_spec {P : BridsonParams} {pts : ℕ → ℕ → Option Pt} {q : Pt}
    (h : (isValidC P pts q).1 = true) :
    0 ≤ cellIdxX P q.1 ∧ cellIdxX P q.1 < P.xStepsZ ∧
    0 ≤ cellIdxY P q.2 ∧ cellIdxY P q.2 < P.yStepsZ ∧
    pts (cellIdxY P q.2).toNat (cellIdxX P q.1).toNat = none ∧
    neighborClear P pts (cellIdxX P q.1) (cellIdxY P q.2) q = true ∧
    P.pred q.1 q.2 = true := by
  simp only [isValidC] at h
  split at h
  · simp at h
  · rename_i hb
    push_neg at hb
    split at h
    · simp at h
    · rename_i hocc
      split at h
      · rename_i hnbr
        simp only [] at h
        exact ⟨hb.1, hb.2.1, hb.2.2.1, hb.2.2.2,
          Option.not_isSome_iff_eq_none.mp hocc, hnbr, h⟩
      · simp at h

/-! ### Step counts and degenerate ranges -/

theorem stepCount_self (x0 : ℤ) (s : ℚ) : stepCount x0 x0 s = 1 := by
  simp [stepCount, truncQ]

theorem stepCount_eq_zero {lo hi : ℤ} {pitch : ℚ} (hp : 0 < pitch)
    (h : ((hi - lo : ℤ) : ℚ) ≤ -pitch) : stepCount lo hi pitch = 0 := by
  have hq : ((hi - lo : ℤ) : ℚ) / pitch ≤ -1 := by
    have h1 : ((hi - lo : ℤ) : ℚ) / pitch ≤ (-pitch) / pitch :=
      (div_le_div_iff_of_pos_right hp).mpr h
    rwa [neg_div, div_self (ne_of_gt hp)] at h1
  have ht : truncQ (((hi - lo : ℤ) : ℚ) / pitch) ≤ -1 := by
    unfold truncQ
    split
    · rename_i h0
      exfalso
      linarith
    · have h1 : (1 : ℚ) ≤ -(((hi - lo : ℤ) : ℚ) / pitch) := by linarith
      have h2 : (1 : ℤ) ≤ ⌊-(((hi - lo : ℤ) : ℚ) / pitch)⌋ :=
        Int.le_floor.mpr (by exact_mod_cast h1)
      omega
  unfold stepCount
  omega

theorem gridGeneratePoints_steps_zero (x0 x1 y0 y1 : ℤ)
    (pred : ℤ → ℤ → Bool) (s : ℚ)
    (h : stepCount x0 x1 s = 0 ∨ stepCount y0 y1 s = 0) :
    gridGeneratePoints x0 x1 y0 y1 pred s = [] := by
  rw [gridGeneratePoints_eq_flatMap]
  rcases h with h | h <;> simp [h]

theorem starGeneratePoints_steps_zero (x0 x1 y0 y1 : ℤ)
    (pred : ℤ → ℤ → Bool) (s : ℚ)
    (h : stepCount x0 x1 (2 * s) = 0 ∨ stepCount y0 y1 s = 0) :
    starGeneratePoints x0 x1 y0 y1 pred s = [] := by
  rw [starGeneratePoints_eq_flatMap]
  rcases h with h | h <;> simp [h]

theorem bridson_degenerate_empty (P : BridsonParams) (src : RandSrc)
    (hc : 0 < P.c) (hxy : P.x1 ≤ P.x0 ∨ P.y1 ≤ P.y0) :
    bridsonGeneratePoints P src = [] := by
  have hsteps : P.xStepsN = 0 ∨ P.yStepsN = 0 := by
    rcases hxy with hx | hy
    · left
      have h1 : ((P.x1 - P.x0 : ℤ) : ℚ) ≤ 0 := by
        have : P.x1 - P.x0 ≤ 0 := by omega
        exact_mod_cast this
      have h2 : ((P.x1 - P.x0 : ℤ) : ℚ) / P.c ≤ 0 :=
        div_nonpos_of_nonpos_of_nonneg h1 hc.le
      have h3 : P.xStepsZ ≤ 0 := truncQ_nonpos h2
      simp [BridsonParams.xStepsN, Int.toNat_eq_zero.mpr h3]
    · right
      have h1 : ((P.y1 - P.y0 : ℤ) : ℚ) ≤ 0 := by
        have : P.y1 - P.y0 ≤ 0 := by omega
        exact_mod_cast this
      have h2 : ((P.y1 - P.y0 : ℤ) : ℚ) / P.c ≤ 0 :=
        div_nonpos_of_nonpos_of_nonneg h1 hc.le
      have h3 : P.yStepsZ ≤ 0 := truncQ_nonpos h2
      simp [BridsonParams.yStepsN, Int.toNat_eq_zero.mpr h3]
  have hcells : allCells P = [] := by
    unfold allCells
    rcases hsteps with h | h <;> simp [h]
  unfold bridsonGeneratePoints bridsonGeneratePointsM bridsonRunFrom
  simp only [BridsonInstance.init, hcells, List.foldl_nil]
  rw [collectPoints_eq]
  simp

/-! ### Row-major scan form of the Bridson output -/

/-- `generate_points` ends by scanning all grid cells in row-major order and
collecting the occupants, so the output is that scan of the final grid. -/
theorem bridsonGeneratePoints_eq_scan (P : BridsonParams) (src : RandSrc) :
    bridsonGeneratePoints P src =
      (List.range P.yStepsN).flatMap (fun i =>
        (List.range P.xStepsN).flatMap (fun j =>
          ((bridsonRun P src).pts i j).toList)) :=
  collectPoints_eq P (bridsonRun P src).pts

theorem mem_bridsonGeneratePoints {P : BridsonParams} {src : RandSrc}
    {p : Pt} :
    p ∈ bridsonGeneratePoints P src ↔
      ∃ i j, i < P.yStepsN ∧ j < P.xStepsN ∧
        (bridsonRun P src).pts i j = some p :=
  mem_collectPoints

/-! ### The three claims settled directly by the above -/

/-- C7: the sequence returned by `BridsonFillStrategy.generate_points()` is
exactly the occupied points of the spatial grid collected in row-major
cell-scan order, and the output is a function of the final grid occupancy
(dimensions and occupants) alone. -/
theorem bridson_output_is_grid_scan :
    (∀ (P : BridsonParams) (src : RandSrc),
      bridsonGeneratePoints P src =
        (List.range P.yStepsN).flatMap (fun i =>
          (List.range P.xStepsN).flatMap (fun j =>
            ((bridsonRun P src).pts i j).toList))) ∧
    (∀ (P₁ : BridsonParams) (src₁ : RandSrc) (P₂ : BridsonParams)
      (src₂ : RandSrc),
      P₁.xStepsN = P₂.xStepsN → P₁.yStepsN = P₂.yStepsN →
      (bridsonRun P₁ src₁).pts = (bridsonRun P₂ src₂).pts →
      bridsonGeneratePoints P₁ src₁ = bridsonGeneratePoints P₂ src₂) := by
  refine ⟨fun P src => bridsonGeneratePoints_eq_scan P src, ?_⟩
  intro P₁ src₁ P₂ src₂ hx hy hpts
  rw [bridsonGeneratePoints_eq_scan, bridsonGeneratePoints_eq_scan, hx, hy,
    hpts]

/-- C7 witness: instantiated at one concrete strategy (twice). -/
theorem bridson_output_is_grid_scan_witness :
    bridsonGeneratePoints ⟨0, 4, 0, 1, fun _ _ => true, 1⟩
        ⟨fun _ => (0, 0), fun _ => (5, 5)⟩ =
      bridsonGeneratePoints ⟨0, 4, 0, 1, fun _ _ => true, 1⟩
        ⟨fun _ => (0, 0), fun _ => (5, 5)⟩ :=
  bridson_output_is_grid_scan.2 _ _ _ _ rfl rfl rfl

/-! ### C9: determinism of the two lattice strategies

The source methods `GridFillStrategy.generate_points` and
`StarFillStrategy.generate_points` contain no reference to the `random`
module.  Modelling the process-wide random state explicitly as an extra
argument, the result is independent of it. -/

/-- `GridFillStrategy.generate_points()` run in a process whose global random
state is `src` (never read by the method body). -/
def gridRunWithRandom (x0 x1 y0 y1 : ℤ) (pred : ℤ → ℤ → Bool) (s : ℚ)
    (_src : RandSrc) : List Pt :=
  gridGeneratePoints x0 x1 y0 y1 pred s

/-- `StarFillStrategy.generate_points()` run in a process whose global random
state is `src` (never read by the method body). -/
def starRunWithRandom (x0 x1 y0 y1 : ℤ) (pred : ℤ → ℤ → Bool) (s : ℚ)
    (_src : RandSrc) : List Pt :=
  starGeneratePoints x0 x1 y0 y1 pred s

/-- C9: `GridFillStrategy` and `StarFillStrategy` are deterministic — two
runs with identical constructor inputs return identical sequences, whatever
the ambient random state of each run. -/
theorem grid_star_deterministic (x0 x1 y0 y1 : ℤ) (pred : ℤ → ℤ → Bool)
    (s : ℚ) (src src' : RandSrc) :
    gridRunWithRandom x0 x1 y0 y1 pred s src =
      gridRunWithRandom x0 x1 y0 y1 pred s src' ∧
    starRunWithRandom x0 x1 y0 y1 pred s src =
      starRunWithRandom x0 x1 y0 y1 pred s src' :=
  ⟨rfl, rfl⟩

/-! ### C3: degenerate ranges -/

/-- C3 counterexample: with `x_range = (5, 5)` (max = min), `y_range = (0, 0)`
and an always-true predicate, `GridFillStrategy` returns `[(5, 0)]`, not the
empty sequence: `int((5-5)/spacing) + 1 = 1` step is enumerated per axis. -/
theorem degenerate_range_counterexample :
    gridGeneratePoints 5 5 0 0 (fun _ _ => true) 1 ≠ [] := by decide

/-- C3 (amended): no strategy raises an error on a degenerate range.
`BridsonFillStrategy` returns the empty sequence whenever `max ≤ min` on
either axis (its step counts omit the `+ 1`).  `GridFillStrategy` and
`StarFillStrategy` enumerate `int((max - min) / pitch) + 1` lattice steps per
axis, which is `1`, not `0`, when `max = min` (so the output need not be
empty), and is `0` — forcing an empty output — only when
`max - min ≤ -pitch` on some axis. -/
theorem degenerate_range_behaviour :
    (∀ (P : BridsonParams) (src : RandSrc), 0 < P.c →
      P.x1 ≤ P.x0 ∨ P.y1 ≤ P.y0 → bridsonGeneratePoints P src = []) ∧
    (∀ (x0 : ℤ) (s : ℚ), stepCount x0 x0 s = 1) ∧
    (∀ (lo hi : ℤ) (pitch : ℚ), 0 < pitch → ((hi - lo : ℤ) : ℚ) ≤ -pitch →
      stepCount lo hi pitch = 0) ∧
    (∀ (x0 x1 y0 y1 : ℤ) (pred : ℤ → ℤ → Bool) (s : ℚ),
      stepCount x0 x1 s = 0 ∨ stepCount y0 y1 s = 0 →
      gridGeneratePoints x0 x1 y0 y1 pred s = []) ∧
    (∀ (x0 x1 y0 y1 : ℤ) (pred : ℤ → ℤ → Bool) (s : ℚ),
      stepCount x0 x1 (2 * s) = 0 ∨ stepCount y0 y1 s = 0 →
      starGeneratePoints x0 x1 y0 y1 pred s = []) :=
  ⟨bridson_degenerate_empty, stepCount_self,
    fun _ _ _ hp h => stepCount_eq_zero hp h,
    gridGeneratePoints_steps_zero, starGeneratePoints_steps_zero⟩

/-- C3 witness: the amended claim applied at concrete inputs — a Bridson
strategy on the inverted range `x_range = (3, 0)`, the step count at
`x_range = (5, 5)`, a zero step count for `hi - lo = -2 ≤ -pitch = -1`,
and grid/star runs with a zero step count. -/
theorem degenerate_range_behaviour_witness :
    bridsonGeneratePoints ⟨3, 0, 0, 1, fun _ _ => true, 1⟩
        ⟨fun _ => (0, 0), fun _ => (5, 5)⟩ = [] ∧
    stepCount 5 5 1 = 1 ∧
    stepCount 0 (-2) 1 = 0 ∧
    gridGeneratePoints 0 (-2) 0 0 (fun _ _ => true) 1 = [] ∧
    starGeneratePoints 0 (-4) 0 0 (fun _ _ => true) 1 = [] :=
  ⟨degenerate_range_behaviour.1 _ _ (by norm_num) (Or.inl (by norm_num)),
    degenerate_range_behaviour.2.1 5 1,
    degenerate_range_behaviour.2.2.1 0 (-2) 1 (by norm_num) (by norm_num),
    degenerate_range_behaviour.2.2.2.1 0 (-2) 0 0 _ 1
      (Or.inl (degenerate_range_behaviour.2.2.1 0 (-2) 1 (by norm_num)
        (by norm_num))),
    degenerate_range_behaviour.2.2.2.2 0 (-4) 0 0 _ 1
      (Or.inl (degenerate_range_behaviour.2.2.1 0 (-4) 2 (by norm_num)
        (by norm_num)))⟩

/-! ### C5 / C6: the lattice formulas of the specification -/

theorem flatMap_singleton_eq_map {α β : Type} (l : List α) (f : α → β) :
    l.flatMap (fun a => [f a]) = l.map f := by
  induction l with
  | nil => rfl
  | cons a t ih => simp [ih]

theorem flatMap_ext {α β : Type} (l : List α) {f g : α → List β}
    (h : ∀ a, f a = g a) : l.flatMap f = l.flatMap g :=
  congrArg l.flatMap (funext h)

theorem eq_of_mem_ite_singleton {β : Type} {c : Prop} [Decidable c] {x p : β}
    (h : p ∈ if c then [x] else []) : c ∧ p = x := by
  by_cases hc : c
  · rw [if_pos hc] at h
    exact ⟨hc, List.mem_singleton.mp h⟩
  · rw [if_neg hc] at h
    exact absurd h (List.not_mem_nil p)

/-- The grid lattice as the specification words it: `x_steps * y_steps`
candidates, the one at index `(x_i, y_i)` being
`(round(x0 + x_i*spacing), round(y0 + y_i*spacing))`, with
`x_steps = floor((x1-x0)/spacing) + 1` and `y_steps` analogous. -/
def gridSpecPoints (x0 x1 y0 y1 : ℤ) (s : ℚ) : List Pt :=
  (List.range (⌊((x1 - x0 : ℤ) : ℚ) / s⌋ + 1).toNat).flatMap (fun (xi : ℕ) =>
    (List.range (⌊((y1 - y0 : ℤ) : ℚ) / s⌋ + 1).toNat).map (fun (yi : ℕ) =>
      (pyRound ((x0 : ℚ) + (xi : ℚ) * s), pyRound ((y0 : ℚ) + (yi : ℚ) * s))))

/-- C5: with an always-true predicate, `max > min` on both axes and positive
spacing, `GridFillStrategy` emits exactly the `x_steps * y_steps` lattice
points of the specification formula, in lattice order. -/
theorem grid_cardinality (x0 x1 y0 y1 : ℤ) (s : ℚ) (hs : 0 < s)
    (hx : x0 < x1) (hy : y0 < y1) :
    gridGeneratePoints x0 x1 y0 y1 (fun _ _ => true) s =
      gridSpecPoints x0 x1 y0 y1 s ∧
    (gridGeneratePoints x0 x1 y0 y1 (fun _ _ => true) s).length =
      (⌊((x1 - x0 : ℤ) : ℚ) / s⌋ + 1).toNat *
        (⌊((y1 - y0 : ℤ) : ℚ) / s⌋ + 1).toNat := by
  have hxq : (0 : ℚ) ≤ ((x1 - x0 : ℤ) : ℚ) / s := by
    apply div_nonneg _ hs.le
    have : (0 : ℤ) ≤ x1 - x0 := by omega
    exact_mod_cast this
  have hyq : (0 : ℚ) ≤ ((y1 - y0 : ℤ) : ℚ) / s := by
    apply div_nonneg _ hs.le
    have : (0 : ℤ) ≤ y1 - y0 := by omega
    exact_mod_cast this
  have hstx : stepCount x0 x1 s = (⌊((x1 - x0 : ℤ) : ℚ) / s⌋ + 1).toNat := by
    unfold stepCount
    rw [truncQ_eq_floor_of_nonneg hxq]
  have hsty : stepCount y0 y1 s = (⌊((y1 - y0 : ℤ) : ℚ) / s⌋ + 1).toNat := by
    unfold stepCount
    rw [truncQ_eq_floor_of_nonneg hyq]
  have heq : gridGeneratePoints x0 x1 y0 y1 (fun _ _ => true) s =
      gridSpecPoints x0 x1 y0 y1 s := by
    rw [gridGeneratePoints_eq_flatMap, hstx, hsty]
    unfold gridSpecPoints
    refine flatMap_ext _ (fun xi => ?_)
    rw [← flatMap_singleton_eq_map]
    refine flatMap_ext _ (fun yi => ?_)
    have h1 : (xi : ℚ) * s + (x0 : ℚ) = (x0 : ℚ) + (xi : ℚ) * s := by ring
    have h2 : (yi : ℚ) * s + (y0 : ℚ) = (y0 : ℚ) + (yi : ℚ) * s := by ring
    simp [h1, h2]
  refine ⟨heq, ?_⟩
  rw [heq]
  unfold gridSpecPoints
  rw [List.length_flatMap]
  simp [Function.comp_def, List.map_const', List.sum_replicate, smul_eq_mul]

/-- C5 witness: `x_range = (0, 10)`, `y_range = (0, 10)`, `spacing = 5` gives
the nine points `{0, 5, 10} × {0, 5, 10}`. -/
theorem grid_cardinality_witness :
    (0 : ℚ) < 5 ∧ (0 : ℤ) < 10 ∧
    gridGeneratePoints 0 10 0 10 (fun _ _ => true) 5 =
      gridSpecPoints 0 10 0 10 5 ∧
    (gridGeneratePoints 0 10 0 10 (fun _ _ => true) 5).length =
      (⌊((10 - 0 : ℤ) : ℚ) / 5⌋ + 1).toNat * (⌊((10 - 0 : ℤ) : ℚ) / 5⌋ + 1).toNat :=
  ⟨by norm_num, by norm_num,
    (grid_cardinality 0 10 0 10 5 (by norm_num) (by norm_num) (by norm_num)).1,
    (grid_cardinality 0 10 0 10 5 (by norm_num) (by norm_num) (by norm_num)).2⟩

/-- The star lattice as the specification words it, except that the
enumerated step counts use Python `int()` truncation (toward zero) rather
than `floor`; with `s = centre_spacing / sqrt 2`:
`x = round(x0 + x_i*2s + (s if y_i odd else 0))`, `y = round(y0 + y_i*s)`,
emitted iff the predicate holds. -/
def starSpecPoints (x0 x1 y0 y1 : ℤ) (pred : ℤ → ℤ → Bool) (s : ℚ) :
    List Pt :=
  (List.range (truncQ (((x1 - x0 : ℤ) : ℚ) / (2 * s)) + 1).toNat).flatMap
    (fun (xi : ℕ) =>
      (List.range (truncQ (((y1 - y0 : ℤ) : ℚ) / s) + 1).toNat).flatMap
        (fun (yi : ℕ) =>
          if pred (pyRound ((x0 : ℚ) + (xi : ℚ) * (2 * s) +
                (if yi % 2 = 1 then s else 0)))
              (pyRound ((y0 : ℚ) + (yi : ℚ) * s)) then
            [(pyRound ((x0 : ℚ) + (xi : ℚ) * (2 * s) +
                (if yi % 2 = 1 then s else 0)),
              pyRound ((y0 : ℚ) + (yi : ℚ) * s))]
          else []))

/-- The star lattice with the step counts exactly as the claim words them:
`x_steps = floor((x1-x0)/(2s)) + 1`, `y_steps = floor((y1-y0)/s) + 1`. -/
def starSpecPointsFloor (x0 x1 y0 y1 : ℤ) (pred : ℤ → ℤ → Bool) (s : ℚ) :
    List Pt :=
  (List.range (⌊((x1 - x0 : ℤ) : ℚ) / (2 * s)⌋ + 1).toNat).flatMap
    (fun (xi : ℕ) =>
      (List.range (⌊((y1 - y0 : ℤ) : ℚ) / s⌋ + 1).toNat).flatMap
        (fun (yi : ℕ) =>
          if pred (pyRound ((x0 : ℚ) + (xi : ℚ) * (2 * s) +
                (if yi % 2 = 1 then s else 0)))
              (pyRound ((y0 : ℚ) + (yi : ℚ) * s)) then
            [(pyRound ((x0 : ℚ) + (xi : ℚ) * (2 * s) +
                (if yi % 2 = 1 then s else 0)),
              pyRound ((y0 : ℚ) + (yi : ℚ) * s))]
          else []))

/-- C6 counterexample: on the inverted range `x_range = (0, -1)` the code
enumerates `int(-1/(2s)) + 1 = 1` column (truncation toward zero), while the
claimed `floor(-1/(2s)) + 1 = 0` would enumerate none; with an always-true
predicate the outputs differ (`[(0, 0)]` versus `[]`, for `s = 1`). -/
theorem star_lattice_counterexample :
    starGeneratePoints 0 (-1) 0 0 (fun _ _ => true) 1 ≠
      starSpecPointsFloor 0 (-1) 0 0 (fun _ _ => true) 1 := by decide

/-- C6 (amended): `StarFillStrategy.generate_points()` enumerates
`int((x1-x0)/(2s)) + 1` by `int((y1-y0)/s) + 1` lattice indices — `int()`
truncating toward zero, which agrees with the claimed `floor` whenever
`max ≥ min` — and emits the candidate
`(round(x0 + x_i*2s + (s if y_i odd else 0)), round(y0 + y_i*s))`
exactly when the predicate holds at it. -/
theorem star_lattice_formula (x0 x1 y0 y1 : ℤ) (pred : ℤ → ℤ → Bool)
    (s : ℚ) :
    starGeneratePoints x0 x1 y0 y1 pred s =
      starSpecPoints x0 x1 y0 y1 pred s := by
  rw [starGeneratePoints_eq_flatMap]
  unfold starSpecPoints stepCount
  congr 1
  funext xi
  congr 1
  funext yi
  have hx : (xi : ℚ) * 2 * s + (x0 : ℚ) + (if yi % 2 = 1 then s else 0) =
      (x0 : ℚ) + (xi : ℚ) * (2 * s) + (if yi % 2 = 1 then s else 0) := by
    ring
  have hy : (yi : ℚ) * s + (y0 : ℚ) = (y0 : ℚ) + (yi : ℚ) * s := by
    ring
  rw [hx, hy]

/-! ### C2: containment -/

/-- C2: for all three strategies, every emitted point satisfies the validity
predicate (for `BridsonFillStrategy`, whatever the random streams). -/
theorem every_emitted_point_valid :
    (∀ (x0 x1 y0 y1 : ℤ) (pred : ℤ → ℤ → Bool) (s : ℚ) (p : Pt),
      p ∈ gridGeneratePoints x0 x1 y0 y1 pred s → pred p.1 p.2 = true) ∧
    (∀ (x0 x1 y0 y1 : ℤ) (pred : ℤ → ℤ → Bool) (s : ℚ) (p : Pt),
      p ∈ starGeneratePoints x0 x1 y0 y1 pred s → pred p.1 p.2 = true) ∧
    (∀ (P : BridsonParams) (src : RandSrc) (p : Pt),
      p ∈ bridsonGeneratePoints P src → P.pred p.1 p.2 = true) := by
  refine ⟨?_, ?_, ?_⟩
  · intro x0 x1 y0 y1 pred s p hp
    rw [gridGeneratePoints_eq_flatMap] at hp
    simp only [List.mem_flatMap, List.mem_range] at hp
    obtain ⟨xi, _, yi, _, hp⟩ := hp
    obtain ⟨hpred, rfl⟩ := eq_of_mem_ite_singleton hp
    exact hpred
  · intro x0 x1 y0 y1 pred s p hp
    rw [starGeneratePoints_eq_flatMap] at hp
    simp only [List.mem_flatMap, List.mem_range] at hp
    obtain ⟨xi, _, yi, _, hp⟩ := hp
    obtain ⟨hpred, rfl⟩ := eq_of_mem_ite_singleton hp
    exact hpred
  · intro P src p hp
    obtain ⟨i, j, _, _, hsome⟩ := mem_bridsonGeneratePoints.mp hp
    refine ptsInv_run (fun q => P.pred q.1 q.2 = true) ?_ i j p hsome
    intro pts q hv
    exact (isValidC_spec hv).2.2.2.2.2.2

/-- C2 witness: a non-trivial predicate, one emitted point per strategy. -/
theorem every_emitted_point_valid_witness :
    ((0, 0) ∈ gridGeneratePoints 0 2 0 0 (fun x y => decide (x + y ≤ 1)) 1) ∧
    (fun (x y : ℤ) => decide (x + y ≤ 1)) 0 0 = true ∧
    ((0, 0) ∈ starGeneratePoints 0 2 0 0 (fun x y => decide (x + y ≤ 1)) 1) ∧
    ((0, 0) ∈ bridsonGeneratePoints
        ⟨0, 4, 0, 1, fun x y => decide (x + y ≤ 1), 1⟩
        ⟨fun _ => (0, 0), fun _ => (5, 5)⟩) ∧
    (fun (x y : ℤ) => decide (x + y ≤ 1)) 0 0 = true :=
  ⟨by decide,
    every_emitted_point_valid.1 0 2 0 0 (fun x y => decide (x + y ≤ 1)) 1
      (0, 0) (by decide),
    by decide,
    by decide,
    every_emitted_point_valid.2.2
      ⟨0, 4, 0, 1, fun x y => decide (x + y ≤ 1), 1⟩
      ⟨fun _ => (0, 0), fun _ => (5, 5)⟩ (0, 0) (by decide)⟩

/-! ### C10: Bridson points lie strictly inside the bounding rectangle -/

/-- If a coordinate's cell index is within `[0, int((hi-lo)/c))`, the
coordinate itself lies in `[lo, hi)`: the grid spans at most `hi - lo`
because `int((hi-lo)/c) * c ≤ hi - lo`. -/
theorem idx_bounds {lo hi x : ℤ} {c : ℚ} (hc : 0 < c)
    (h0 : 0 ≤ ⌊((x - lo : ℤ) : ℚ) / c⌋)
    (h1 : ⌊((x - lo : ℤ) : ℚ) / c⌋ < truncQ (((hi - lo : ℤ) : ℚ) / c)) :
    lo ≤ x ∧ x < hi := by
  have hq0 : (0 : ℚ) ≤ ((x - lo : ℤ) : ℚ) / c := Int.floor_nonneg.mp h0
  constructor
  · by_contra hlt
    push_neg at hlt
    have hneg : ((x - lo : ℤ) : ℚ) < 0 := by
      have : x - lo < 0 := by omega
      exact_mod_cast this
    have : ((x - lo : ℤ) : ℚ) / c < 0 := div_neg_of_neg_of_pos hneg hc
    linarith
  · have hQ0 : (0 : ℚ) ≤ ((hi - lo : ℤ) : ℚ) / c := by
      by_contra hneg
      push_neg at hneg
      have := truncQ_nonpos hneg.le
      omega
    rw [truncQ_eq_floor_of_nonneg hQ0] at h1
    have h2 : ((⌊((x - lo : ℤ) : ℚ) / c⌋ + 1 : ℤ) : ℚ) ≤
        ((hi - lo : ℤ) : ℚ) / c := Int.le_floor.mp (by omega)
    have h3 : ((x - lo : ℤ) : ℚ) / c <
        ((⌊((x - lo : ℤ) : ℚ) / c⌋ + 1 : ℤ) : ℚ) := by
      push_cast
      exact Int.lt_floor_add_one _
    have h4 : ((x - lo : ℤ) : ℚ) / c < ((hi - lo : ℤ) : ℚ) / c := lt_of_lt_of_le h3 h2
    have h5 : ((x - lo : ℤ) : ℚ) < ((hi - lo : ℤ) : ℚ) :=
      (div_lt_div_iff_of_pos_right hc).mp h4
    have : x - lo < hi - lo := by exact_mod_cast h5
    omega

/-- C10: every point emitted by `BridsonFillStrategy.generate_points()` lies
strictly inside the bounding rectangle, `x0 ≤ x < x1` and `y0 ≤ y < y1`: a
point is only stored after `_is_valid` has checked that its cell index lies
in `[0, x_steps) × [0, y_steps)`, and `x_steps * cell_size ≤ x1 - x0`. -/
theorem bridson_points_strictly_inside (P : BridsonParams) (src : RandSrc)
    (hc : 0 < P.c) (p : Pt) (hp : p ∈ bridsonGeneratePoints P src) :
    P.x0 ≤ p.1 ∧ p.1 < P.x1 ∧ P.y0 ≤ p.2 ∧ p.2 < P.y1 := by
  obtain ⟨i, j, _, _, hsome⟩ := mem_bridsonGeneratePoints.mp hp
  have hR := ptsInv_run
    (fun q => 0 ≤ cellIdxX P q.1 ∧ cellIdxX P q.1 < P.xStepsZ ∧
      0 ≤ cellIdxY P q.2 ∧ cellIdxY P q.2 < P.yStepsZ)
    (fun pts q hv => by
      have h := isValidC_spec hv
      exact ⟨h.1, h.2.1, h.2.2.1, h.2.2.2.1⟩)
    i j p hsome
  have hx := idx_bounds hc hR.1 hR.2.1
  have hy := idx_bounds hc hR.2.2.1 hR.2.2.2
  exact ⟨hx.1, hx.2, hy.1, hy.2⟩

/-- C10 witness: a concrete two-point run, both points strictly inside. -/
theorem bridson_points_strictly_inside_witness :
    (0 : ℚ) < 1 ∧
    ((2, 0) ∈ bridsonGeneratePoints ⟨0, 4, 0, 1, fun _ _ => true, 1⟩
      ⟨fun _ => (0, 0), fun _ => (5, 5)⟩) ∧
    ((0 : ℤ) ≤ 2 ∧ (2 : ℤ) < 4 ∧ (0 : ℤ) ≤ 0 ∧ (0 : ℤ) < 1) :=
  ⟨by norm_num, by decide,
    bridson_points_strictly_inside ⟨0, 4, 0, 1, fun _ _ => true, 1⟩
      ⟨fun _ => (0, 0), fun _ => (5, 5)⟩ (by norm_num) (2, 0) (by decide)⟩

/-! ### C8: per-run state is instance state, not call-local state -/

/-- C8 counterexample: the spatial grid and checked flags are created in
`__init__` and mutated by `generate_points`, so they survive the call.  On
`x_range = (0, 2)`, `y_range = (0, 1)`, `cell_size = 1`: a fresh strategy run
with seed stream `u = 3/5` returns `[(1, 0)]`, but the same random stream fed
to a second call on an instance that already ran (with seed stream `u = 0`,
output `[(0, 0)]`) returns `[(0, 0)]` again — the second call is not
independent of the first, as it would be if the state were created fresh. -/
theorem bridson_state_reuse_counterexample :
    (bridsonGeneratePointsM
        ((bridsonGeneratePointsM
            (BridsonInstance.init ⟨0, 2, 0, 1, fun _ _ => true, 1⟩)
            ⟨fun _ => (0, 0), fun _ => (5, 5)⟩).1)
        ⟨fun _ => (3/5, 0), fun _ => (5, 5)⟩).2 ≠
      (bridsonGeneratePointsM
        (BridsonInstance.init ⟨0, 2, 0, 1, fun _ _ => true, 1⟩)
        ⟨fun _ => (3/5, 0), fun _ => (5, 5)⟩).2 := by decide

theorem chk_mono_seedTries {P : BridsonParams} {src : RandSrc} (i j : ℕ)
    {a b : ℕ} :
    ∀ (t : ℕ) (st : BState), st.chk a b = true →
      (seedTries P src i j t st).1.chk a b = true := by
  intro t
  induction t with
  | zero => intro st h; exact h
  | succ t ih =>
      intro st h
      simp only [seedTries]
      split
      · exact h
      · exact ih _ h

theorem chk_setChk_mono {g : ℕ → ℕ → Bool} {a b : ℕ} (h : g a b = true)
    (i j : ℕ) : setChk g i j true a b = true := by
  unfold setChk
  split <;> simp [h]

theorem chk_mono_processCands {P : BridsonParams} {a b : ℕ} :
    ∀ (cs : List Pt) (st : BState) (active : List Pt), st.chk a b = true →
      (processCands P st active cs).1.chk a b = true := by
  intro cs
  induction cs with
  | nil => intro st active h; exact h
  | cons cand cs ih =>
      intro st active h
      simp only [processCands]
      split
      · exact ih _ _ (chk_setChk_mono h _ _)
      · exact ih _ _ h

theorem chk_mono_drain {P : BridsonParams} {src : RandSrc} {a b : ℕ} :
    ∀ (fuel : ℕ) (st : BState) (active : List Pt), st.chk a b = true →
      (drain P src fuel st active).chk a b = true := by
  intro fuel
  induction fuel with
  | zero =>
      intro st active h
      simp only [drain]
      split <;> exact h
  | succ fuel ih =>
      intro st active h
      cases active with
      | nil => simp only [drain]; exact h
      | cons base rest =>
          simp only [drain]
          exact ih _ _ (chk_mono_processCands _ _ _ h)

theorem chk_mono_outerCell {P : BridsonParams} {src : RandSrc} {a b : ℕ}
    (st : BState) (ij : ℕ × ℕ) (h : st.chk a b = true) :
    (outerCell P src st ij).chk a b = true := by
  simp only [outerCell]
  split
  · exact h
  · exact chk_mono_drain _ _ _
      (chk_setChk_mono (chk_mono_seedTries _ _ _ _ h) _ _)

theorem chk_mono_foldl {P : BridsonParams} {src : RandSrc} {a b : ℕ} :
    ∀ (cells : List (ℕ × ℕ)) (st : BState), st.chk a b = true →
      (cells.foldl (outerCell P src) st).chk a b = true := by
  intro cells
  induction cells with
  | nil => intro st h; exact h
  | cons ij cells ih =>
      intro st h
      simp only [List.foldl_cons]
      exact ih _ (chk_mono_outerCell _ _ h)

/-- After the outer scan reaches a cell, that cell is checked. -/
theorem chk_outerCell_self {P : BridsonParams} {src : RandSrc}
    (st : BState) (ij : ℕ × ℕ) :
    (outerCell P src st ij).chk ij.1 ij.2 = true := by
  simp only [outerCell]
  split
  · assumption
  · apply chk_mono_drain
    unfold setChk
    simp

/-- After a full scan, every scanned cell is checked. -/
theorem chk_all_after_foldl {P : BridsonParams} {src : RandSrc} :
    ∀ (cells : List (ℕ × ℕ)) (st : BState) (ij : ℕ × ℕ), ij ∈ cells →
      (cells.foldl (outerCell P src) st).chk ij.1 ij.2 = true := by
  intro cells
  induction cells with
  | nil => intro st ij h; cases h
  | cons c cs ih =>
      intro st ij h
      simp only [List.foldl_cons]
      rcases List.mem_cons.mp h with rfl | h
      · exact chk_mono_foldl cs _ (chk_outerCell_self st ij)
      · exact ih _ ij h

/-- A scan over cells that are all already checked leaves the state
untouched. -/
theorem foldl_all_checked {P : BridsonParams} {src : RandSrc} :
    ∀ (cells : List (ℕ × ℕ)) (st : BState),
      (∀ ij ∈ cells, st.chk ij.1 ij.2 = true) →
      cells.foldl (outerCell P src) st = st := by
  intro cells
  induction cells with
  | nil => intro st _; rfl
  | cons c cs ih =>
      intro st h
      simp only [List.foldl_cons]
      have hc : outerCell P src st c = st := by
        simp only [outerCell, h c (List.mem_cons_self c cs)]
        rfl
      rw [hc]
      exact ih st (fun ij hij => h ij (List.mem_cons_of_mem c hij))

/-- C8 (amended): `GridFillStrategy` and `StarFillStrategy` hold no sampling
state at all.  For `BridsonFillStrategy` the spatial grid and checked flags
are created in the *constructor* and persist on the instance: a first
`generate_points()` call leaves every cell checked, so a second call — with
any ambient random state — skips every cell, draws no randomness, evaluates
the predicate zero times, leaves the instance unchanged, and returns the
same sequence as the first call.  It is reproducible, but only because the
mutated instance state survives; it is not a fresh, independent run. -/
theorem bridson_instance_state_persists (P : BridsonParams)
    (src src' : RandSrc) :
    bridsonGeneratePointsM
        ((bridsonGeneratePointsM (BridsonInstance.init P) src).1) src' =
      bridsonGeneratePointsM (BridsonInstance.init P) src ∧
    (bridsonRunFrom ((bridsonGeneratePointsM (BridsonInstance.init P) src).1)
        src').n = 0 ∧
    (bridsonRunFrom ((bridsonGeneratePointsM (BridsonInstance.init P) src).1)
        src').npred = 0 := by
  have hall : ∀ ij ∈ allCells P,
      (bridsonRun P src).chk ij.1 ij.2 = true := by
    intro ij hij
    exact chk_all_after_foldl (allCells P) _ ij hij
  have hrun2 : bridsonRunFrom
      ((bridsonGeneratePointsM (BridsonInstance.init P) src).1) src' =
      { pts := (bridsonRun P src).pts, chk := (bridsonRun P src).chk,
        n := 0, npred := 0, starved := false } := by
    exact foldl_all_checked (allCells P) _ (fun ij hij => hall ij hij)
  refine ⟨?_, ?_, ?_⟩
  · show (_, _) = (_, _)
    rw [hrun2]
    rfl
  · rw [hrun2]
  · rw [hrun2]

/-! ### C4: the work of one Bridson run is bounded

Potential argument: every accepted point fills a previously empty in-bounds
cell (the occupancy check of `_is_valid`), so `countEmpty + |active|` is
invariant under candidate processing and strictly decreases at every drain
iteration; each seed attempt or drained candidate evaluates the predicate at
most once. -/

/-- Number of empty cells of the grid. -/
def countEmpty (P : BridsonParams) (pts : ℕ → ℕ → Option Pt) : ℕ :=
  ∑ i ∈ Finset.range P.yStepsN, ∑ j ∈ Finset.range P.xStepsN,
    if (pts i j).isNone then 1 else 0

theorem countEmpty_le (P : BridsonParams) (pts : ℕ → ℕ → Option Pt) :
    countEmpty P pts ≤ P.yStepsN * P.xStepsN := by
  unfold countEmpty
  calc ∑ i ∈ Finset.range P.yStepsN, ∑ j ∈ Finset.range P.xStepsN,
        (if (pts i j).isNone then 1 else 0) ≤
      ∑ i ∈ Finset.range P.yStepsN, ∑ j ∈ Finset.range P.xStepsN, 1 := by
        refine Finset.sum_le_sum (fun i _ => ?_)
        refine Finset.sum_le_sum (fun j _ => ?_)
        split <;> omega
    _ = P.yStepsN * P.xStepsN := by
        simp [Finset.sum_const, Finset.card_range, mul_comm]

theorem countEmpty_init (P : BridsonParams) :
    countEmpty P (fun _ _ => none) = P.yStepsN * P.xStepsN := by
  unfold countEmpty
  simp [Finset.sum_const, Finset.card_range, mul_comm]

/-- Storing a point into an empty in-bounds cell decreases the number of
empty cells by exactly one. -/
theorem countEmpty_setPt {P : BridsonParams} {pts : ℕ → ℕ → Option Pt}
    {i j : ℕ} (hi : i < P.yStepsN) (hj : j < P.xStepsN)
    (hnone : pts i j = none) (q : Pt) :
    countEmpty P (setPt pts i j (some q)) + 1 = countEmpty P pts := by
  unfold countEmpty
  rw [← Finset.add_sum_erase _ _ (Finset.mem_range.mpr hi),
    ← Finset.add_sum_erase (Finset.range P.yStepsN)
      (fun i' => ∑ j' ∈ Finset.range P.xStepsN,
        if (pts i' j').isNone then 1 else 0)
      (Finset.mem_range.mpr hi)]
  have hrest : ∑ i' ∈ (Finset.range P.yStepsN).erase i,
      (∑ j' ∈ Finset.range P.xStepsN,
        if (setPt pts i j (some q) i' j').isNone then 1 else 0) =
      ∑ i' ∈ (Finset.range P.yStepsN).erase i,
      (∑ j' ∈ Finset.range P.xStepsN, if (pts i' j').isNone then 1 else 0) := by
    refine Finset.sum_congr rfl (fun i' hi' => ?_)
    refine Finset.sum_congr rfl (fun j' _ => ?_)
    rw [setPt_ne pts i j (some q)
      (fun hand => (Finset.ne_of_mem_erase hi') hand.1)]
  rw [hrest]
  have hrowi : (∑ j' ∈ Finset.range P.xStepsN,
      if (setPt pts i j (some q) i j').isNone then 1 else 0) + 1 =
      ∑ j' ∈ Finset.range P.xStepsN, if (pts i j').isNone then 1 else 0 := by
    rw [← Finset.add_sum_erase _ _ (Finset.mem_range.mpr hj),
      ← Finset.add_sum_erase (Finset.range P.xStepsN)
        (fun j' => if (pts i j').isNone then 1 else 0)
        (Finset.mem_range.mpr hj)]
    have hcols : ∑ j' ∈ (Finset.range P.xStepsN).erase j,
        (if (setPt pts i j (some q) i j').isNone then 1 else 0) =
        ∑ j' ∈ (Finset.range P.xStepsN).erase j,
        (if (pts i j').isNone then 1 else 0) := by
      refine Finset.sum_congr rfl (fun j' hj' => ?_)
      rw [setPt_ne pts i j (some q)
        (fun hand => (Finset.ne_of_mem_erase hj') hand.2)]
    rw [hcols, setPt_eq, hnone]
    simp
    omega
  omega

/-- The grid-update bounds extracted from a successful `_is_valid`. -/
theorem isValidC_store_facts {P : BridsonParams} {pts : ℕ → ℕ → Option Pt}
    {q : Pt} (h : (isValidC P pts q).1 = true) :
    (cellIdxY P q.2).toNat < P.yStepsN ∧
    (cellIdxX P q.1).toNat < P.xStepsN ∧
    pts (cellIdxY P q.2).toNat (cellIdxX P q.1).toNat = none := by
  have hs := isValidC_spec h
  refine ⟨?_, ?_, hs.2.2.2.2.1⟩
  · have h1 := hs.2.2.1
    have h2 := hs.2.2.2.1
    unfold BridsonParams.yStepsN
    omega
  · have h1 := hs.1
    have h2 := hs.2.1
    unfold BridsonParams.xStepsN
    omega

/-- Candidate processing: preserves `countEmpty + |active|`, costs at most
one predicate evaluation per candidate, and leaves `starved` alone. -/
theorem processCands_measure (P : BridsonParams) :
    ∀ (cs : List Pt) (st : BState) (active : List Pt),
      countEmpty P (processCands P st active cs).1.pts +
          (processCands P st active cs).2.length =
        countEmpty P st.pts + active.length ∧
      (processCands P st active cs).1.npred ≤ st.npred + cs.length ∧
      (processCands P st active cs).1.starved = st.starved := by
  intro cs
  induction cs with
  | nil => intro st active; exact ⟨rfl, Nat.le_refl _, rfl⟩
  | cons cand cs ih =>
      intro st active
      simp only [processCands]
      split
      · rename_i hv
        obtain ⟨hyi, hxi, hnone⟩ := isValidC_store_facts hv
        have hset := countEmpty_setPt hyi hxi hnone cand
        obtain ⟨ihm, ihn, ihs⟩ := ih _ (cand :: active)
        refine ⟨?_, ?_, ihs⟩
        · rw [ihm]
          simp only [List.length_cons]
          omega
        · refine le_trans ihn ?_
          simp only [List.length_cons]
          split <;> omega
      · obtain ⟨ihm, ihn, ihs⟩ := ih _ active
        refine ⟨by rw [ihm], ?_, ihs⟩
        refine le_trans ihn ?_
        simp only [List.length_cons]
        split <;> omega

theorem offspringPoints_length (src : RandSrc) (n : ℕ) (base : Pt) :
    (offspringPoints src n base).length = bridsonK := by
  simp [offspringPoints]

/-- Drain loop: the potential `npred + k * (countEmpty + |active|)` never
increases. -/
theorem drain_psi (P : BridsonParams) (src : RandSrc) :
    ∀ (fuel : ℕ) (st : BState) (active : List Pt),
      (drain P src fuel st active).npred +
          bridsonK * countEmpty P (drain P src fuel st active).pts ≤
        st.npred + bridsonK * (countEmpty P st.pts + active.length) := by
  intro fuel
  induction fuel with
  | zero =>
      intro st active
      simp only [drain, bridsonK]
      split
      · omega
      · dsimp only
        omega
  | succ fuel ih =>
      intro st active
      cases active with
      | nil =>
          simp only [drain, bridsonK]
          omega
      | cons base rest =>
          simp only [drain]
          obtain ⟨hm, hn, _⟩ := processCands_measure P
            (offspringPoints src st.n base)
            { st with n := st.n + bridsonK } rest
          have hdr := ih (processCands P { st with n := st.n + bridsonK }
            rest (offspringPoints src st.n base)).1
            (processCands P { st with n := st.n + bridsonK } rest
              (offspringPoints src st.n base)).2
          rw [offspringPoints_length] at hn
          dsimp only at hdr hn hm ⊢
          simp only [bridsonK] at hdr hn hm ⊢
          simp only [List.length_cons]
          omega

/-- Drain loop: the fuel `countEmpty + |active|` is exactly the number of
iterations needed; with at least that much fuel the loop ends because the
active list is empty, never because the fuel ran out. -/
theorem drain_no_starve (P : BridsonParams) (src : RandSrc) :
    ∀ (fuel : ℕ) (st : BState) (active : List Pt),
      st.starved = false →
      countEmpty P st.pts + active.length ≤ fuel →
      (drain P src fuel st active).starved = false := by
  intro fuel
  induction fuel with
  | zero =>
      intro st active hs hf
      have : active.length = 0 := by omega
      have hnil : active = [] := List.length_eq_zero.mp this
      simp [drain, hnil, hs]
  | succ fuel ih =>
      intro st active hs hf
      cases active with
      | nil => simp only [drain]; exact hs
      | cons base rest =>
          simp only [drain]
          obtain ⟨hm, _, hstv⟩ := processCands_measure P
            (offspringPoints src st.n base)
            { st with n := st.n + bridsonK } rest
          refine ih _ _ (by rw [hstv]; exact hs) ?_
          simp only [List.length_cons] at hf
          dsimp only at hm
          omega

/-- Seeding attempts: at most one predicate evaluation per try; an accepted
seed fills the scanned (empty) cell, a failed scan leaves the grid alone. -/
theorem seedTries_cost (P : BridsonParams) (src : RandSrc) (i j : ℕ)
    (hi : i < P.yStepsN) (hj : j < P.xStepsN) :
    ∀ (t : ℕ) (st : BState), st.pts i j = none →
      countEmpty P (seedTries P src i j t st).1.pts +
          (seedTries P src i j t st).2.toList.length = countEmpty P st.pts ∧
      (seedTries P src i j t st).1.npred ≤ st.npred + t ∧
      (seedTries P src i j t st).1.starved = st.starved := by
  intro t
  induction t with
  | zero =>
      intro st hnone
      exact ⟨rfl, Nat.le_refl _, rfl⟩
  | succ t ih =>
      intro st hnone
      simp only [seedTries]
      split
      · refine ⟨?_, ?_, rfl⟩
        · simp only [Option.toList_some, List.length_singleton]
          exact countEmpty_setPt hi hj hnone _
        · dsimp only
          split <;> omega
      · obtain ⟨ihm, ihn, ihs⟩ := ih
          { st with
            n := st.n + 1,
            npred := st.npred + (if (isValidC P st.pts
              (seedPoint P src st.n i j)).2 = true then 1 else 0) }
          hnone
        refine ⟨ihm, ?_, ihs⟩
        refine le_trans ihn ?_
        dsimp only
        split <;> omega

/-- The shape of the grid after the seeding attempts: unchanged, or one
point stored at the scanned cell. -/
theorem seedTries_pts_shape (P : BridsonParams) (src : RandSrc) (i j : ℕ) :
    ∀ (t : ℕ) (st : BState),
      (seedTries P src i j t st).1.pts = st.pts ∨
      ∃ p, (seedTries P src i j t st).1.pts = setPt st.pts i j (some p) ∧
        (seedTries P src i j t st).1.chk = st.chk := by
  intro t
  induction t with
  | zero => intro st; exact Or.inl rfl
  | succ t ih =>
      intro st
      simp only [seedTries]
      split
      · exact Or.inr ⟨_, rfl, rfl⟩
      · exact ih _

/-- Seeding attempts do not modify the checked grid. -/
theorem seedTries_chk (P : BridsonParams) (src : RandSrc) (i j : ℕ) :
    ∀ (t : ℕ) (st : BState), (seedTries P src i j t st).1.chk = st.chk := by
  intro t
  induction t with
  | zero => intro st; rfl
  | succ t ih =>
      intro st
      simp only [seedTries]
      split
      · rfl
      · exact ih _

/-- The structural invariant "an unchecked cell is unoccupied". -/
def UncheckedEmpty (st : BState) : Prop :=
  ∀ a b : ℕ, st.chk a b = false → st.pts a b = none

theorem uncheckedEmpty_processCands (P : BridsonParams) :
    ∀ (cs : List Pt) (st : BState) (active : List Pt), UncheckedEmpty st →
      UncheckedEmpty (processCands P st active cs).1 := by
  intro cs
  induction cs with
  | nil => intro st active h; exact h
  | cons cand cs ih =>
      intro st active h
      simp only [processCands]
      split
      · refine ih _ _ ?_
        intro a b hab
        simp only [setChk] at hab
        split at hab
        · cases hab
        · rename_i hne
          dsimp only
          rw [setPt_ne _ _ _ _ hne]
          exact h a b hab
      · exact ih _ _ h

theorem uncheckedEmpty_drain (P : BridsonParams) (src : RandSrc) :
    ∀ (fuel : ℕ) (st : BState) (active : List Pt), UncheckedEmpty st →
      UncheckedEmpty (drain P src fuel st active) := by
  intro fuel
  induction fuel with
  | zero =>
      intro st active h
      simp only [drain]
      split
      · exact h
      · exact h
  | succ fuel ih =>
      intro st active h
      cases active with
      | nil => simp only [drain]; exact h
      | cons base rest =>
          simp only [drain]
          exact ih _ _ (uncheckedEmpty_processCands P _ _ _ h)

theorem uncheckedEmpty_outerCell (P : BridsonParams) (src : RandSrc)
    (st : BState) (ij : ℕ × ℕ) (h : UncheckedEmpty st) :
    UncheckedEmpty (outerCell P src st ij) := by
  simp only [outerCell]
  split
  · exact h
  · refine uncheckedEmpty_drain P src _ _ _ ?_
    intro a b hab
    simp only [setChk, seedTries_chk] at hab
    split at hab
    · cases hab
    · rename_i hne
      rcases seedTries_pts_shape P src ij.1 ij.2 bridsonK st with hsh | ⟨p, hsh, _⟩
      · rw [hsh]
        exact h a b hab
      · rw [hsh, setPt_ne _ _ _ _ hne]
        exact h a b hab

/-- Per outer cell: at most `k` seed tries plus fully compensated drain
work — the potential `npred + k * countEmpty` grows by at most `k`. -/
theorem outerCell_cost (P : BridsonParams) (src : RandSrc) (st : BState)
    (ij : ℕ × ℕ) (hi : ij.1 < P.yStepsN) (hj : ij.2 < P.xStepsN)
    (hD : UncheckedEmpty st) (hs : st.starved = false) :
    (outerCell P src st ij).npred +
        bridsonK * countEmpty P (outerCell P src st ij).pts ≤
      st.npred + bridsonK * countEmpty P st.pts + bridsonK ∧
    (outerCell P src st ij).starved = false := by
  simp only [outerCell]
  split
  · refine ⟨?_, hs⟩
    simp only [bridsonK]
    omega
  · rename_i hchk
    have hnone : st.pts ij.1 ij.2 = none := by
      refine hD ij.1 ij.2 ?_
      revert hchk
      cases st.chk ij.1 ij.2 <;> simp
    obtain ⟨hm, hn, hstv⟩ := seedTries_cost P src ij.1 ij.2 hi hj bridsonK st
      hnone
    set sr := seedTries P src ij.1 ij.2 bridsonK st with hsr
    have hpsi := drain_psi P src
      (P.xStepsN * P.yStepsN + sr.2.toList.length)
      { sr.1 with chk := setChk sr.1.chk ij.1 ij.2 true }
      sr.2.toList
    have hns := drain_no_starve P src
      (P.xStepsN * P.yStepsN + sr.2.toList.length)
      { sr.1 with chk := setChk sr.1.chk ij.1 ij.2 true }
      sr.2.toList
      (by dsimp only; exact hstv.trans hs)
      (by
        dsimp only
        have hle := countEmpty_le P sr.1.pts
        have hcm : P.yStepsN * P.xStepsN = P.xStepsN * P.yStepsN :=
          Nat.mul_comm _ _
        omega)
    refine ⟨?_, hns⟩
    dsimp only at hpsi
    simp only [bridsonK] at hpsi hn hm ⊢
    omega

/-- The whole outer scan: the potential grows by at most `k` per scanned
cell, and the drain fuel never runs out. -/
theorem foldl_cost (P : BridsonParams) (src : RandSrc) :
    ∀ (cells : List (ℕ × ℕ)) (st : BState),
      (∀ ij ∈ cells, ij.1 < P.yStepsN ∧ ij.2 < P.xStepsN) →
      UncheckedEmpty st → st.starved = false →
      (cells.foldl (outerCell P src) st).npred +
          bridsonK * countEmpty P (cells.foldl (outerCell P src) st).pts ≤
        st.npred + bridsonK * countEmpty P st.pts +
          bridsonK * cells.length ∧
      (cells.foldl (outerCell P src) st).starved = false := by
  intro cells
  induction cells with
  | nil =>
      intro st _ _ hs
      simp only [List.foldl_nil, List.length_nil]
      exact ⟨by omega, hs⟩
  | cons c cs ih =>
      intro st hb hD hs
      simp only [List.foldl_cons]
      obtain ⟨h1, h2⟩ := outerCell_cost P src st c
        (hb c (List.mem_cons_self c cs)).1 (hb c (List.mem_cons_self c cs)).2
        hD hs
      obtain ⟨h3, h4⟩ := ih (outerCell P src st c)
        (fun ij hij => hb ij (List.mem_cons_of_mem c hij))
        (uncheckedEmpty_outerCell P src st c hD) h2
      refine ⟨?_, h4⟩
      simp only [List.length_cons]
      simp only [bridsonK] at h1 h3 ⊢
      omega

theorem allCells_mem_bounds (P : BridsonParams) :
    ∀ ij ∈ allCells P, ij.1 < P.yStepsN ∧ ij.2 < P.xStepsN := by
  intro ij hij
  unfold allCells at hij
  simp only [List.mem_flatMap, List.mem_map, List.mem_range] at hij
  obtain ⟨i, hi, j, hj, rfl⟩ := hij
  exact ⟨hi, hj⟩

theorem allCells_length (P : BridsonParams) :
    (allCells P).length = P.yStepsN * P.xStepsN := by
  unfold allCells
  rw [List.length_flatMap]
  simp [Function.comp_def, List.map_const', List.sum_replicate, smul_eq_mul]

theorem drain_nil (P : BridsonParams) (src : RandSrc) (fuel : ℕ)
    (st : BState) : drain P src fuel st [] = st := by
  cases fuel <;> simp [drain]

theorem falsePred_seedTries (P : BridsonParams) (src : RandSrc)
    (hf : ∀ x y, P.pred x y = false) (i j : ℕ) :
    ∀ (t : ℕ) (st : BState),
      (seedTries P src i j t st).1.pts = st.pts ∧
      (seedTries P src i j t st).2 = none ∧
      (seedTries P src i j t st).1.npred ≤ st.npred + t ∧
      (seedTries P src i j t st).1.starved = st.starved := by
  intro t
  induction t with
  | zero => intro st; exact ⟨rfl, rfl, Nat.le_refl _, rfl⟩
  | succ t ih =>
      intro st
      simp only [seedTries]
      split
      · rename_i hv
        exfalso
        have hpred := (isValidC_spec hv).2.2.2.2.2.2
        rw [hf] at hpred
        cases hpred
      · obtain ⟨ih1, ih2, ih3, ih4⟩ := ih
          { st with
            n := st.n + 1,
            npred := st.npred + (if (isValidC P st.pts
              (seedPoint P src st.n i j)).2 = true then 1 else 0) }
        refine ⟨ih1, ih2, ?_, ih4⟩
        refine le_trans ih3 ?_
        dsimp only
        split <;> omega

theorem falsePred_outerCell (P : BridsonParams) (src : RandSrc)
    (hf : ∀ x y, P.pred x y = false) (st : BState) (ij : ℕ × ℕ) :
    (outerCell P src st ij).pts = st.pts ∧
    (outerCell P src st ij).npred ≤ st.npred + bridsonK := by
  simp only [outerCell]
  split
  · exact ⟨rfl, by omega⟩
  · obtain ⟨h1, h2, h3, _⟩ := falsePred_seedTries P src hf ij.1 ij.2
      bridsonK st
    set sr := seedTries P src ij.1 ij.2 bridsonK st with hsr
    rw [h2]
    simp only [Option.toList_none, List.length_nil]
    rw [drain_nil]
    dsimp only
    exact ⟨h1, h3⟩

theorem falsePred_foldl (P : BridsonParams) (src : RandSrc)
    (hf : ∀ x y, P.pred x y = false) :
    ∀ (cells : List (ℕ × ℕ)) (st : BState),
      (cells.foldl (outerCell P src) st).pts = st.pts ∧
      (cells.foldl (outerCell P src) st).npred ≤
        st.npred + bridsonK * cells.length := by
  intro cells
  induction cells with
  | nil =>
      intro st
      refine ⟨rfl, ?_⟩
      simp only [List.foldl_nil, List.length_nil, Nat.mul_zero]
      omega
  | cons c cs ih =>
      intro st
      simp only [List.foldl_cons, List.length_cons]
      obtain ⟨h1, h2⟩ := falsePred_outerCell P src hf st c
      obtain ⟨h3, h4⟩ := ih (outerCell P src st c)
      refine ⟨h3.trans h1, ?_⟩
      refine le_trans h4 ?_
      simp only [bridsonK] at h2 ⊢
      omega

/-- C4: `BridsonFillStrategy.generate_points()` terminates — the drain loop
provably never exhausts its (sufficient) fuel, recorded as
`starved = false` — and evaluates `valid_predicate` at most
`2 * (x_steps * y_steps) * k` times: at most `k` seeding attempts per grid
cell plus `k` offspring per drain iteration, of which there are at most as
many as accepted points, each accepted point filling a previously empty
cell.  With an always-false predicate it evaluates the predicate at most
`k` times per grid cell (`x_steps * y_steps * k` in total) and returns the
empty sequence. -/
theorem bridson_work_bound (P : BridsonParams) (src : RandSrc) :
    (bridsonRun P src).npred ≤ 2 * (P.xStepsN * P.yStepsN) * bridsonK ∧
    (bridsonRun P src).starved = false ∧
    ((∀ x y, P.pred x y = false) →
      bridsonGeneratePoints P src = [] ∧
      (bridsonRun P src).npred ≤ P.xStepsN * P.yStepsN * bridsonK) := by
  have hinit : UncheckedEmpty
      ({ pts := (BridsonInstance.init P).pts
         chk := (BridsonInstance.init P).chk
         n := 0
         npred := 0
         starved := false } : BState) := fun a b _ => rfl
  obtain ⟨hc1, hc2⟩ := foldl_cost P src (allCells P) _
    (allCells_mem_bounds P) hinit rfl
  have hce : countEmpty P (BridsonInstance.init P).pts =
      P.yStepsN * P.xStepsN := countEmpty_init P
  rw [allCells_length P] at hc1
  dsimp only at hc1
  rw [hce] at hc1
  have hc1' : (bridsonRun P src).npred +
      bridsonK * countEmpty P (bridsonRun P src).pts ≤
      0 + bridsonK * (P.yStepsN * P.xStepsN) +
        bridsonK * (P.yStepsN * P.xStepsN) := hc1
  refine ⟨?_, hc2, ?_⟩
  · have hcm : P.xStepsN * P.yStepsN = P.yStepsN * P.xStepsN :=
      Nat.mul_comm _ _
    rw [hcm]
    revert hc1'
    generalize P.yStepsN * P.xStepsN = M
    generalize (bridsonRun P src).npred = A
    intro hc1'
    simp only [bridsonK] at hc1' ⊢
    omega
  · intro hf
    obtain ⟨hp, hn⟩ := falsePred_foldl P src hf (allCells P)
      { pts := (BridsonInstance.init P).pts
        chk := (BridsonInstance.init P).chk
        n := 0
        npred := 0
        starved := false }
    constructor
    · have hp' : (bridsonRun P src).pts = (BridsonInstance.init P).pts := hp
      show collectPoints P (bridsonRun P src).pts = []
      rw [hp']
      rw [collectPoints_eq]
      simp [BridsonInstance.init]
    · rw [allCells_length P] at hn
      dsimp only at hn
      have hn' : (bridsonRun P src).npred ≤
          0 + bridsonK * (P.yStepsN * P.xStepsN) := hn
      have hcm : P.xStepsN * P.yStepsN = P.yStepsN * P.xStepsN :=
        Nat.mul_comm _ _
      rw [hcm]
      revert hn'
      generalize P.yStepsN * P.xStepsN = M
      generalize (bridsonRun P src).npred = A
      intro hn'
      simp only [bridsonK] at hn' ⊢
      omega

/-- C4 witness: the bound applied at a concrete strategy whose predicate is
always false — the output is empty and at most `k` predicate evaluations per
cell happen. -/
theorem bridson_work_bound_witness :
    (∀ (x y : ℤ), (fun (_ _ : ℤ) => false) x y = false) ∧
    (bridsonGeneratePoints ⟨0, 3, 0, 1, fun _ _ => false, 1⟩
        ⟨fun _ => (0, 0), fun _ => (5, 5)⟩ = [] ∧
      (bridsonRun ⟨0, 3, 0, 1, fun _ _ => false, 1⟩
          ⟨fun _ => (0, 0), fun _ => (5, 5)⟩).npred ≤
        (⟨0, 3, 0, 1, fun _ _ => false, 1⟩ : BridsonParams).xStepsN *
          (⟨0, 3, 0, 1, fun _ _ => false, 1⟩ : BridsonParams).yStepsN *
          bridsonK) :=
  ⟨fun _ _ => rfl,
    (bridson_work_bound ⟨0, 3, 0, 1, fun _ _ => false, 1⟩
      ⟨fun _ => (0, 0), fun _ => (5, 5)⟩).2.2 (fun _ _ => rfl)⟩

/-! ### C1: minimum separation of the Bridson output

Geometry of the final grid.  A stored point sits either exactly inside the
cell its own coordinates index (offspring, stored at `_cell_index(point)`),
or — for seed points, which are stored at the scanned cell `(i, j)`
regardless of where rounding moved them — inside that cell's rectangle
inflated by the rounding slack `1/2`.  Between any two stored points, one of
three facts holds: the `_is_valid` kernel compared them (squared distance at
least `centre_spacing ^ 2 = 2 c ^ 2`), their slots are diagonal second
neighbours (both coordinate gaps at least `c - 1/2`), or their slots are at
Chebyshev distance at least 3 (some coordinate gap at least `2 c - 1/2`).
Each case puts the Euclidean distance within one length unit of
`centre_spacing = sqrt 2 * c`. -/

/-- A point stored at row `i`, column `j` lies in that cell's rectangle
inflated by `1/2`. -/
def SlotContains (P : BridsonParams) (i j : ℕ) (p : Pt) : Prop :=
  (j : ℚ) * P.c - 1/2 ≤ ((p.1 - P.x0 : ℤ) : ℚ) ∧
  ((p.1 - P.x0 : ℤ) : ℚ) ≤ ((j : ℚ) + 1) * P.c + 1/2 ∧
  (i : ℚ) * P.c - 1/2 ≤ ((p.2 - P.y0 : ℤ) : ℚ) ∧
  ((p.2 - P.y0 : ℤ) : ℚ) ≤ ((i : ℚ) + 1) * P.c + 1/2

/-- Pairwise separation facts maintained between stored points. -/
def SEP (c : ℚ) (p q : Pt) : Prop :=
  2 * c ^ 2 ≤ ((distSq p q : ℤ) : ℚ) ∨
  (c - 1/2 ≤ |((q.1 - p.1 : ℤ) : ℚ)| ∧ c - 1/2 ≤ |((q.2 - p.2 : ℤ) : ℚ)|) ∨
  (2 * c - 1/2 ≤ |((q.1 - p.1 : ℤ) : ℚ)| ∨
    2 * c - 1/2 ≤ |((q.2 - p.2 : ℤ) : ℚ)|)

theorem distSq_comm (p q : Pt) : distSq p q = distSq q p := by
  unfold distSq
  ring

theorem sep_symm {c : ℚ} {p q : Pt} (h : SEP c p q) : SEP c q p := by
  unfold SEP at h ⊢
  rw [distSq_comm q p]
  rcases h with h | ⟨h1, h2⟩ | h
  · exact Or.inl h
  · refine Or.inr (Or.inl ⟨?_, ?_⟩)
    · rw [show ((p.1 - q.1 : ℤ) : ℚ) = -((q.1 - p.1 : ℤ) : ℚ) by push_cast; ring,
        abs_neg]
      exact h1
    · rw [show ((p.2 - q.2 : ℤ) : ℚ) = -((q.2 - p.2 : ℤ) : ℚ) by push_cast; ring,
        abs_neg]
      exact h2
  · refine Or.inr (Or.inr ?_)
    rcases h with h | h
    · refine Or.inl ?_
      rw [show ((p.1 - q.1 : ℤ) : ℚ) = -((q.1 - p.1 : ℤ) : ℚ) by push_cast; ring,
        abs_neg]
      exact h
    · refine Or.inr ?_
      rw [show ((p.2 - q.2 : ℤ) : ℚ) = -((q.2 - p.2 : ℤ) : ℚ) by push_cast; ring,
        abs_neg]
      exact h

/-- The 5×5 box around a cell: every offset other than the origin and the
four corners is in the `_is_valid` kernel. -/
theorem kernel_box (a b : ℤ) (ha : |a| ≤ 2) (hb : |b| ≤ 2)
    (h00 : ¬(a = 0 ∧ b = 0)) :
    (a, b) ∈ OFFSETS ∨ (|a| = 2 ∧ |b| = 2) := by
  have ha5 : a = -2 ∨ a = -1 ∨ a = 0 ∨ a = 1 ∨ a = 2 := by
    rcases abs_le.mp ha with ⟨h1, h2⟩
    omega
  have hb5 : b = -2 ∨ b = -1 ∨ b = 0 ∨ b = 1 ∨ b = 2 := by
    rcases abs_le.mp hb with ⟨h1, h2⟩
    omega
  rcases ha5 with rfl | rfl | rfl | rfl | rfl <;>
    rcases hb5 with rfl | rfl | rfl | rfl | rfl <;>
    first
      | decide
      | exact absurd ⟨rfl, rfl⟩ h00

/-- A candidate's coordinates lie exactly in the cell `_cell_index` names. -/
theorem cellIdx_exact_x (P : BridsonParams) (hc : 0 < P.c) (x : ℤ) :
    ((cellIdxX P x : ℤ) : ℚ) * P.c ≤ ((x - P.x0 : ℤ) : ℚ) ∧
    ((x - P.x0 : ℤ) : ℚ) < (((cellIdxX P x : ℤ) : ℚ) + 1) * P.c := by
  unfold cellIdxX
  constructor
  · have h := Int.floor_le (((x - P.x0 : ℤ) : ℚ) / P.c)
    calc ((⌊((x - P.x0 : ℤ) : ℚ) / P.c⌋ : ℤ) : ℚ) * P.c ≤
        (((x - P.x0 : ℤ) : ℚ) / P.c) * P.c := by
          exact mul_le_mul_of_nonneg_right h hc.le
      _ = ((x - P.x0 : ℤ) : ℚ) := by field_simp
  · have h := Int.lt_floor_add_one (((x - P.x0 : ℤ) : ℚ) / P.c)
    calc ((x - P.x0 : ℤ) : ℚ) = (((x - P.x0 : ℤ) : ℚ) / P.c) * P.c := by
          field_simp
      _ < ((⌊((x - P.x0 : ℤ) : ℚ) / P.c⌋ : ℚ) + 1) * P.c := by
          exact mul_lt_mul_of_pos_right h hc
      _ = (((⌊((x - P.x0 : ℤ) : ℚ) / P.c⌋ : ℤ) : ℚ) + 1) * P.c := by
          push_cast
          ring

theorem cellIdx_exact_y (P : BridsonParams) (hc : 0 < P.c) (y : ℤ) :
    ((cellIdxY P y : ℤ) : ℚ) * P.c ≤ ((y - P.y0 : ℤ) : ℚ) ∧
    ((y - P.y0 : ℤ) : ℚ) < (((cellIdxY P y : ℤ) : ℚ) + 1) * P.c := by
  unfold cellIdxY
  constructor
  · have h := Int.floor_le (((y - P.y0 : ℤ) : ℚ) / P.c)
    calc ((⌊((y - P.y0 : ℤ) : ℚ) / P.c⌋ : ℤ) : ℚ) * P.c ≤
        (((y - P.y0 : ℤ) : ℚ) / P.c) * P.c := by
          exact mul_le_mul_of_nonneg_right h hc.le
      _ = ((y - P.y0 : ℤ) : ℚ) := by field_simp
  · have h := Int.lt_floor_add_one (((y - P.y0 : ℤ) : ℚ) / P.c)
    calc ((y - P.y0 : ℤ) : ℚ) = (((y - P.y0 : ℤ) : ℚ) / P.c) * P.c := by
          field_simp
      _ < ((⌊((y - P.y0 : ℤ) : ℚ) / P.c⌋ : ℚ) + 1) * P.c := by
          exact mul_lt_mul_of_pos_right h hc
      _ = (((⌊((y - P.y0 : ℤ) : ℚ) / P.c⌋ : ℤ) : ℚ) + 1) * P.c := by
          push_cast
          ring

/-- `SEP` puts the Euclidean distance within one unit of
`centre_spacing = sqrt 2 * c`. -/
theorem sep_real {c : ℚ} (hc : 0 < c) {p q : Pt} (h : SEP c p q) :
    Real.sqrt 2 * (c : ℝ) - 1 ≤ Real.sqrt ((distSq p q : ℤ) : ℝ) := by
  have hD0 : (0 : ℝ) ≤ ((distSq p q : ℤ) : ℝ) := by
    have : (0 : ℤ) ≤ distSq p q := by
      unfold distSq
      positivity
    exact_mod_cast this
  have hs2 : Real.sqrt 2 ≤ 2 := by
    calc Real.sqrt 2 ≤ Real.sqrt (2 ^ 2) :=
          Real.sqrt_le_sqrt (by norm_num)
      _ = 2 := Real.sqrt_sq (by norm_num)
  have hs2' : (0 : ℝ) ≤ Real.sqrt 2 := Real.sqrt_nonneg 2
  have hcR : (0 : ℝ) < (c : ℝ) := by exact_mod_cast hc
  have hsqrt_ge : ∀ a : ℝ, 0 ≤ a → a ^ 2 ≤ ((distSq p q : ℤ) : ℝ) →
      a ≤ Real.sqrt ((distSq p q : ℤ) : ℝ) := by
    intro a ha hsq
    calc a = Real.sqrt (a ^ 2) := (Real.sqrt_sq ha).symm
      _ ≤ Real.sqrt ((distSq p q : ℤ) : ℝ) := Real.sqrt_le_sqrt hsq
  have hdxdy : ((distSq p q : ℤ) : ℚ) =
      ((q.1 - p.1 : ℤ) : ℚ) ^ 2 + ((q.2 - p.2 : ℤ) : ℚ) ^ 2 := by
    unfold distSq
    push_cast
    ring
  rcases h with h | ⟨h1, h2⟩ | h
  · -- kernel-checked pair: distance at least `sqrt 2 * c` itself
    have hsq : (Real.sqrt 2 * (c : ℝ)) ^ 2 ≤ ((distSq p q : ℤ) : ℝ) := by
      have h2R : (2 : ℝ) * (c : ℝ) ^ 2 ≤ ((distSq p q : ℤ) : ℝ) := by
        exact_mod_cast h
      calc (Real.sqrt 2 * (c : ℝ)) ^ 2 = Real.sqrt 2 ^ 2 * (c : ℝ) ^ 2 := by
            ring
        _ = 2 * (c : ℝ) ^ 2 := by rw [Real.sq_sqrt (by norm_num : (0:ℝ) ≤ 2)]
        _ ≤ ((distSq p q : ℤ) : ℝ) := h2R
    have := hsqrt_ge _ (by positivity) hsq
    linarith
  · -- diagonal second neighbours
    by_cases hhalf : (1 : ℚ) / 2 ≤ c
    · have hx : ((c : ℝ) - 1/2) ^ 2 ≤ (((q.1 - p.1 : ℤ) : ℚ) : ℝ) ^ 2 := by
        have h1R : ((c : ℝ) - 1/2) ≤ |(((q.1 - p.1 : ℤ) : ℚ) : ℝ)| := by
          have : ((c - 1/2 : ℚ) : ℝ) ≤ ((|((q.1 - p.1 : ℤ) : ℚ)| : ℚ) : ℝ) := by
            exact_mod_cast h1
          rw [Rat.cast_abs] at this
          push_cast at this ⊢
          linarith
        have hnn : (0 : ℝ) ≤ (c : ℝ) - 1/2 := by
          have h' : ((1/2 : ℚ) : ℝ) ≤ ((c : ℚ) : ℝ) := Rat.cast_le.mpr hhalf
          push_cast at h'
          linarith
        calc ((c : ℝ) - 1/2) ^ 2 ≤ |(((q.1 - p.1 : ℤ) : ℚ) : ℝ)| ^ 2 := by
              exact pow_le_pow_left₀ hnn h1R 2
          _ = (((q.1 - p.1 : ℤ) : ℚ) : ℝ) ^ 2 := sq_abs _
      have hy : ((c : ℝ) - 1/2) ^ 2 ≤ (((q.2 - p.2 : ℤ) : ℚ) : ℝ) ^ 2 := by
        have h2R : ((c : ℝ) - 1/2) ≤ |(((q.2 - p.2 : ℤ) : ℚ) : ℝ)| := by
          have : ((c - 1/2 : ℚ) : ℝ) ≤ ((|((q.2 - p.2 : ℤ) : ℚ)| : ℚ) : ℝ) := by
            exact_mod_cast h2
          rw [Rat.cast_abs] at this
          push_cast at this ⊢
          linarith
        have hnn : (0 : ℝ) ≤ (c : ℝ) - 1/2 := by
          have h' : ((1/2 : ℚ) : ℝ) ≤ ((c : ℚ) : ℝ) := Rat.cast_le.mpr hhalf
          push_cast at h'
          linarith
        calc ((c : ℝ) - 1/2) ^ 2 ≤ |(((q.2 - p.2 : ℤ) : ℚ) : ℝ)| ^ 2 := by
              exact pow_le_pow_left₀ hnn h2R 2
          _ = (((q.2 - p.2 : ℤ) : ℚ) : ℝ) ^ 2 := sq_abs _
      have hDge : 2 * ((c : ℝ) - 1/2) ^ 2 ≤ ((distSq p q : ℤ) : ℝ) := by
        have hD : ((distSq p q : ℤ) : ℝ) =
            (((q.1 - p.1 : ℤ) : ℚ) : ℝ) ^ 2 + (((q.2 - p.2 : ℤ) : ℚ) : ℝ) ^ 2 := by
          exact_mod_cast congrArg (fun t : ℚ => (t : ℝ)) hdxdy
        rw [hD]
        linarith
      have hnn : (0 : ℝ) ≤ (c : ℝ) - 1/2 := by
        have h' : ((1/2 : ℚ) : ℝ) ≤ ((c : ℚ) : ℝ) := Rat.cast_le.mpr hhalf
        push_cast at h'
        linarith
      have hsq : (Real.sqrt 2 * ((c : ℝ) - 1/2)) ^ 2 ≤ ((distSq p q : ℤ) : ℝ) := by
        calc (Real.sqrt 2 * ((c : ℝ) - 1/2)) ^ 2 =
            Real.sqrt 2 ^ 2 * ((c : ℝ) - 1/2) ^ 2 := by ring
          _ = 2 * ((c : ℝ) - 1/2) ^ 2 := by
              rw [Real.sq_sqrt (by norm_num : (0:ℝ) ≤ 2)]
          _ ≤ ((distSq p q : ℤ) : ℝ) := hDge
      have hge := hsqrt_ge _ (by positivity) hsq
      have hexp : Real.sqrt 2 * ((c : ℝ) - 1/2) =
          Real.sqrt 2 * (c : ℝ) - Real.sqrt 2 / 2 := by ring
      have : Real.sqrt 2 / 2 ≤ 1 := by linarith
      nlinarith [hge]
    · -- tiny spacing: the bound is non-positive
      push_neg at hhalf
      have hlt : ((c : ℚ) : ℝ) < ((1/2 : ℚ) : ℝ) := Rat.cast_lt.mpr hhalf
      push_cast at hlt
      have h1 : Real.sqrt 2 * (c : ℝ) ≤ 2 * (c : ℝ) :=
        mul_le_mul_of_nonneg_right hs2 hcR.le
      have h2 : Real.sqrt ((distSq p q : ℤ) : ℝ) ≥ 0 := Real.sqrt_nonneg _
      nlinarith
  · -- some axis gap at least `2c - 1/2`
    by_cases hquarter : (1 : ℚ) / 4 ≤ c
    · have hax : (2 * (c : ℝ) - 1/2) ^ 2 ≤ ((distSq p q : ℤ) : ℝ) := by
        have hnn : (0 : ℝ) ≤ 2 * (c : ℝ) - 1/2 := by
          have h' : ((1/4 : ℚ) : ℝ) ≤ ((c : ℚ) : ℝ) := Rat.cast_le.mpr hquarter
          push_cast at h'
          linarith
        have hD : ((distSq p q : ℤ) : ℝ) =
            (((q.1 - p.1 : ℤ) : ℚ) : ℝ) ^ 2 + (((q.2 - p.2 : ℤ) : ℚ) : ℝ) ^ 2 := by
          exact_mod_cast congrArg (fun t : ℚ => (t : ℝ)) hdxdy
        rcases h with h | h
        · have hR : (2 * (c : ℝ) - 1/2) ≤ |(((q.1 - p.1 : ℤ) : ℚ) : ℝ)| := by
            have : ((2 * c - 1/2 : ℚ) : ℝ) ≤ ((|((q.1 - p.1 : ℤ) : ℚ)| : ℚ) : ℝ) := by
              exact_mod_cast h
            rw [Rat.cast_abs] at this
            push_cast at this ⊢
            linarith
          have := pow_le_pow_left₀ hnn hR 2
          rw [sq_abs] at this
          rw [hD]
          nlinarith [sq_nonneg (((q.2 - p.2 : ℤ) : ℚ) : ℝ)]
        · have hR : (2 * (c : ℝ) - 1/2) ≤ |(((q.2 - p.2 : ℤ) : ℚ) : ℝ)| := by
            have : ((2 * c - 1/2 : ℚ) : ℝ) ≤ ((|((q.2 - p.2 : ℤ) : ℚ)| : ℚ) : ℝ) := by
              exact_mod_cast h
            rw [Rat.cast_abs] at this
            push_cast at this ⊢
            linarith
          have := pow_le_pow_left₀ hnn hR 2
          rw [sq_abs] at this
          rw [hD]
          nlinarith [sq_nonneg (((q.1 - p.1 : ℤ) : ℚ) : ℝ)]
      have hnn : (0 : ℝ) ≤ 2 * (c : ℝ) - 1/2 := by
        have h' : ((1/4 : ℚ) : ℝ) ≤ ((c : ℚ) : ℝ) := Rat.cast_le.mpr hquarter
        push_cast at h'
        linarith
      have hge := hsqrt_ge _ hnn hax
      have h1 : Real.sqrt 2 * (c : ℝ) ≤ 2 * (c : ℝ) :=
        mul_le_mul_of_nonneg_right hs2 hcR.le
      linarith
    · push_neg at hquarter
      have hlt : ((c : ℚ) : ℝ) < ((1/4 : ℚ) : ℝ) := Rat.cast_lt.mpr hquarter
      push_cast at hlt
      have h1 : Real.sqrt 2 * (c : ℝ) ≤ 2 * (c : ℝ) :=
        mul_le_mul_of_nonneg_right hs2 hcR.le
      have h2 : Real.sqrt ((distSq p q : ℤ) : ℝ) ≥ 0 := Real.sqrt_nonneg _
      nlinarith

theorem gap_from_above {c J T pv qv : ℚ} (hc : 0 ≤ c)
    (hp : J * c - 1/2 ≤ pv) (hq : qv < (T + 1) * c) {k : ℚ}
    (hJT : T + k ≤ J) : (k - 1) * c - 1/2 ≤ |qv - pv| := by
  have h1 : (T + k) * c ≤ J * c := mul_le_mul_of_nonneg_right hJT hc
  have e1 : (T + k) * c = T * c + k * c := by ring
  have e2 : (T + 1) * c = T * c + c := by ring
  have e3 : (k - 1) * c = k * c - c := by ring
  have h2 : (k - 1) * c - 1/2 ≤ -(qv - pv) := by linarith
  exact h2.trans (neg_le_abs _)

theorem gap_from_below {c J T pv qv : ℚ} (hc : 0 ≤ c)
    (hp : pv ≤ (J + 1) * c + 1/2) (hq : T * c ≤ qv) {k : ℚ}
    (hJT : J ≤ T - k) : (k - 1) * c - 1/2 ≤ |qv - pv| := by
  have h1 : (J + 1) * c ≤ (T - k + 1) * c :=
    mul_le_mul_of_nonneg_right (by linarith) hc
  have e1 : (T - k + 1) * c = T * c - k * c + c := by ring
  have e3 : (k - 1) * c = k * c - c := by ring
  have h2 : (k - 1) * c - 1/2 ≤ qv - pv := by linarith
  exact h2.trans (le_abs_self _)

/-- The separation established by one successful `_is_valid` call: the new
candidate `q` is `SEP`-separated from every already stored point.  Kernel
offsets were distance-checked directly; the occupancy check rules out the
candidate's own cell; every other slot is geometrically far. -/
theorem sep_of_isValid (P : BridsonParams) (hc : 0 < P.c)
    {pts : ℕ → ℕ → Option Pt} {q : Pt}
    (hA : ∀ i j p, pts i j = some p →
      i < P.yStepsN ∧ j < P.xStepsN ∧ SlotContains P i j p)
    (hv : (isValidC P pts q).1 = true) :
    ∀ I J p, pts I J = some p → SEP P.c p q := by
  intro I J p hp
  obtain ⟨hI, hJ, hcont⟩ := hA I J p hp
  obtain ⟨htx0, htxlt, hty0, htylt, hocc, hnbr, _⟩ := isValidC_spec hv
  have hqx := cellIdx_exact_x P hc q.1
  have hqy := cellIdx_exact_y P hc q.2
  set tx := cellIdxX P q.1 with htx
  set ty := cellIdxY P q.2 with hty
  have hJZ : ((J : ℤ)) < P.xStepsZ := by
    unfold BridsonParams.xStepsN at hJ
    omega
  have hIZ : ((I : ℤ)) < P.yStepsZ := by
    unfold BridsonParams.yStepsN at hI
    omega
  obtain ⟨hcx1, hcx2, hcy1, hcy2⟩ := hcont
  have hdx : ((q.1 - p.1 : ℤ) : ℚ) =
      ((q.1 - P.x0 : ℤ) : ℚ) - ((p.1 - P.x0 : ℤ) : ℚ) := by
    push_cast
    ring
  have hdy : ((q.2 - p.2 : ℤ) : ℚ) =
      ((q.2 - P.y0 : ℤ) : ℚ) - ((p.2 - P.y0 : ℤ) : ℚ) := by
    push_cast
    ring
  by_cases hker : ((J : ℤ) - tx, (I : ℤ) - ty) ∈ OFFSETS
  · -- the kernel saw slot (I, J): its occupant is at distance ≥ spacing
    left
    simp only [neighborClear] at hnbr
    have hall := List.all_eq_true.mp hnbr _ hker
    dsimp only at hall
    have e1 : tx + ((J : ℤ) - tx) = (J : ℤ) := by ring
    have e2 : ty + ((I : ℤ) - ty) = (I : ℤ) := by ring
    rw [e1, e2] at hall
    rw [if_neg (by push_neg; exact ⟨by omega, by omega, by omega, by omega⟩)]
      at hall
    rw [Int.toNat_natCast, Int.toNat_natCast, hp] at hall
    simp only [decide_eq_true_eq] at hall
    exact not_lt.mp hall
  · have h00 : ¬((J : ℤ) - tx = 0 ∧ (I : ℤ) - ty = 0) := by
      rintro ⟨h1, h2⟩
      have hJt : tx.toNat = J := by omega
      have hIt : ty.toNat = I := by omega
      rw [hIt, hJt, hp] at hocc
      cases hocc
    by_cases hbox : |(J : ℤ) - tx| ≤ 2 ∧ |(I : ℤ) - ty| ≤ 2
    · rcases kernel_box _ _ hbox.1 hbox.2 h00 with hmem | ⟨hax, hay⟩
      · exact absurd hmem hker
      · -- diagonal second neighbour
        refine Or.inr (Or.inl ⟨?_, ?_⟩)
        · rw [hdx]
          rcases (abs_eq (by norm_num : (0 : ℤ) ≤ 2)).mp hax with hJt | hJt
          · have hJQ : ((J : ℕ) : ℚ) = ((tx : ℤ) : ℚ) + 2 := by
              have h4 : (J : ℤ) = tx + 2 := by omega
              exact_mod_cast h4
            have := gap_from_above hc.le (hJQ ▸ hcx1) hqx.2 (le_of_eq rfl)
            linarith
          · have hJQ : ((J : ℕ) : ℚ) = ((tx : ℤ) : ℚ) - 2 := by
              have h4 : (J : ℤ) = tx - 2 := by omega
              exact_mod_cast h4
            have := gap_from_below hc.le (hJQ ▸ hcx2) hqx.1 (le_of_eq rfl)
            linarith
        · rw [hdy]
          rcases (abs_eq (by norm_num : (0 : ℤ) ≤ 2)).mp hay with hIt | hIt
          · have hIQ : ((I : ℕ) : ℚ) = ((ty : ℤ) : ℚ) + 2 := by
              have h4 : (I : ℤ) = ty + 2 := by omega
              exact_mod_cast h4
            have := gap_from_above hc.le (hIQ ▸ hcy1) hqy.2 (le_of_eq rfl)
            linarith
          · have hIQ : ((I : ℕ) : ℚ) = ((ty : ℤ) : ℚ) - 2 := by
              have h4 : (I : ℤ) = ty - 2 := by omega
              exact_mod_cast h4
            have := gap_from_below hc.le (hIQ ▸ hcy2) hqy.1 (le_of_eq rfl)
            linarith
    · -- Chebyshev distance at least 3 on some axis
      refine Or.inr (Or.inr ?_)
      rcases not_and_or.mp hbox with hfar | hfar
      · refine Or.inl ?_
        rw [hdx]
        have h3 : (2 : ℤ) + 1 ≤ |(J : ℤ) - tx| :=
          Int.lt_iff_add_one_le.mp (lt_of_not_le hfar)
        rcases le_abs.mp h3 with h3 | h3
        · have hJQ : ((tx : ℤ) : ℚ) + 3 ≤ ((J : ℕ) : ℚ) := by
            have h4 : tx + 3 ≤ (J : ℤ) := by omega
            exact_mod_cast h4
          have := gap_from_above hc.le hcx1 hqx.2 hJQ
          linarith
        · have hJQ : ((J : ℕ) : ℚ) ≤ ((tx : ℤ) : ℚ) - 3 := by
            have h4 : (J : ℤ) ≤ tx - 3 := by omega
            exact_mod_cast h4
          have := gap_from_below hc.le hcx2 hqx.1 hJQ
          linarith
      · refine Or.inr ?_
        rw [hdy]
        have h3 : (2 : ℤ) + 1 ≤ |(I : ℤ) - ty| :=
          Int.lt_iff_add_one_le.mp (lt_of_not_le hfar)
        rcases le_abs.mp h3 with h3 | h3
        · have hIQ : ((ty : ℤ) : ℚ) + 3 ≤ ((I : ℕ) : ℚ) := by
            have h4 : ty + 3 ≤ (I : ℤ) := by omega
            exact_mod_cast h4
          have := gap_from_above hc.le hcy1 hqy.2 hIQ
          linarith
        · have hIQ : ((I : ℕ) : ℚ) ≤ ((ty : ℤ) : ℚ) - 3 := by
            have h4 : (I : ℤ) ≤ ty - 3 := by omega
            exact_mod_cast h4
          have := gap_from_below hc.le hcy2 hqy.1 hIQ
          linarith

/-- The `random.random()` fractions used by `_generate_random_point_in_cell`
lie in `[0, 1)`. -/
def UnitSrc (src : RandSrc) : Prop :=
  ∀ n, 0 ≤ (src.cellU n).1 ∧ (src.cellU n).1 < 1 ∧
    0 ≤ (src.cellU n).2 ∧ (src.cellU n).2 < 1

/-- A seed generated for cell `(i, j)` lies in that cell's slot rectangle:
the exact coordinate is inside the cell, and rounding moves it by at most
`1/2`. -/
theorem seedPoint_slotContains (P : BridsonParams) (hc : 0 < P.c)
    (src : RandSrc) (hu : UnitSrc src) (n i j : ℕ) :
    SlotContains P i j (seedPoint P src n i j) := by
  obtain ⟨hu1, hu2, hv1, hv2⟩ := hu n
  unfold SlotContains seedPoint
  set u := (src.cellU n).1 with hud
  set v := (src.cellU n).2 with hvd
  have hr1 := le_pyRound ((P.x0 : ℚ) + ((j : ℚ) + u) * P.c)
  have hr2 := pyRound_le ((P.x0 : ℚ) + ((j : ℚ) + u) * P.c)
  have hr3 := le_pyRound ((P.y0 : ℚ) + ((i : ℚ) + v) * P.c)
  have hr4 := pyRound_le ((P.y0 : ℚ) + ((i : ℚ) + v) * P.c)
  have e1 : ((j : ℚ) + u) * P.c = (j : ℚ) * P.c + u * P.c := by ring
  have e2 : ((i : ℚ) + v) * P.c = (i : ℚ) * P.c + v * P.c := by ring
  have e3 : ((j : ℚ) + 1) * P.c = (j : ℚ) * P.c + P.c := by ring
  have e4 : ((i : ℚ) + 1) * P.c = (i : ℚ) * P.c + P.c := by ring
  have hup : 0 ≤ u * P.c := mul_nonneg hu1 hc.le
  have hup2 : u * P.c ≤ P.c := by
    have h4 := mul_le_mul_of_nonneg_right hu2.le hc.le
    linarith
  have hvp : 0 ≤ v * P.c := mul_nonneg hv1 hc.le
  have hvp2 : v * P.c ≤ P.c := by
    have h4 := mul_le_mul_of_nonneg_right hv2.le hc.le
    linarith
  refine ⟨?_, ?_, ?_, ?_⟩ <;>
  · dsimp only
    push_cast
    linarith

/-- A candidate that passes `_is_valid` lies (exactly) in the cell named by
`_cell_index`, which is in bounds. -/
theorem valid_slotContains (P : BridsonParams) (hc : 0 < P.c)
    {pts : ℕ → ℕ → Option Pt} {q : Pt}
    (hv : (isValidC P pts q).1 = true) :
    (cellIdxY P q.2).toNat < P.yStepsN ∧ (cellIdxX P q.1).toNat < P.xStepsN ∧
    SlotContains P (cellIdxY P q.2).toNat (cellIdxX P q.1).toNat q := by
  obtain ⟨htx0, htxlt, hty0, htylt, -, -, -⟩ := isValidC_spec hv
  refine ⟨?_, ?_, ?_⟩
  · unfold BridsonParams.yStepsN
    omega
  · unfold BridsonParams.xStepsN
    omega
  · have hx := cellIdx_exact_x P hc q.1
    have hy := cellIdx_exact_y P hc q.2
    have ex : (((cellIdxX P q.1).toNat : ℕ) : ℚ) =
        ((cellIdxX P q.1 : ℤ) : ℚ) := by
      have h4 : ((cellIdxX P q.1).toNat : ℤ) = cellIdxX P q.1 :=
        Int.toNat_of_nonneg htx0
      exact_mod_cast h4
    have ey : (((cellIdxY P q.2).toNat : ℕ) : ℚ) =
        ((cellIdxY P q.2 : ℤ) : ℚ) := by
      have h4 : ((cellIdxY P q.2).toNat : ℤ) = cellIdxY P q.2 :=
        Int.toNat_of_nonneg hty0
      exact_mod_cast h4
    unfold SlotContains
    rw [ex, ey]
    exact ⟨by linarith [hx.1], by linarith [hx.2],
      by linarith [hy.1], by linarith [hy.2]⟩

/-- The coupled grid invariant: every stored point lies in its slot's
(inflated) rectangle, and points in distinct slots are `SEP`-separated. -/
def GoodGrid (P : BridsonParams) (pts : ℕ → ℕ → Option Pt) : Prop :=
  (∀ i j p, pts i j = some p →
    i < P.yStepsN ∧ j < P.xStepsN ∧ SlotContains P i j p) ∧
  (∀ i j p i' j' q, pts i j = some p → pts i' j' = some q →
    ¬(i = i' ∧ j = j') → SEP P.c p q)

theorem goodGrid_insert {P : BridsonParams} (hc : 0 < P.c)
    {pts : ℕ → ℕ → Option Pt} {q : Pt} (hG : GoodGrid P pts)
    (hv : (isValidC P pts q).1 = true)
    {i j : ℕ} (hi : i < P.yStepsN) (hj : j < P.xStepsN)
    (hcont : SlotContains P i j q) :
    GoodGrid P (setPt pts i j (some q)) := by
  obtain ⟨hA, hB⟩ := hG
  have hsep := sep_of_isValid P hc hA hv
  constructor
  · intro i' j' p hp
    rcases Decidable.em (i' = i ∧ j' = j) with hij | hij
    · obtain ⟨rfl, rfl⟩ := hij
      rw [setPt_eq] at hp
      cases hp
      exact ⟨hi, hj, hcont⟩
    · rw [setPt_ne pts i j _ hij] at hp
      exact hA i' j' p hp
  · intro a b p a' b' r hp hr hne
    rcases Decidable.em (a = i ∧ b = j) with h1 | h1 <;>
      rcases Decidable.em (a' = i ∧ b' = j) with h2 | h2
    · exact absurd ⟨h1.1.trans h2.1.symm, h1.2.trans h2.2.symm⟩ hne
    · obtain ⟨rfl, rfl⟩ := h1
      rw [setPt_eq] at hp
      cases hp
      rw [setPt_ne pts a b _ h2] at hr
      exact sep_symm (hsep a' b' r hr)
    · obtain ⟨rfl, rfl⟩ := h2
      rw [setPt_eq] at hr
      cases hr
      rw [setPt_ne pts a' b' _ h1] at hp
      exact hsep a b p hp
    · rw [setPt_ne pts i j _ h1] at hp
      rw [setPt_ne pts i j _ h2] at hr
      exact hB a b p a' b' r hp hr hne

theorem goodGrid_seedTries {P : BridsonParams} (hc : 0 < P.c)
    {src : RandSrc} (hu : UnitSrc src) {i j : ℕ}
    (hi : i < P.yStepsN) (hj : j < P.xStepsN) :
    ∀ (t : ℕ) (st : BState), GoodGrid P st.pts →
      GoodGrid P (seedTries P src i j t st).1.pts := by
  intro t
  induction t with
  | zero => intro st h; exact h
  | succ t ih =>
      intro st h
      simp only [seedTries]
      split
      · rename_i hv
        exact goodGrid_insert hc h hv hi hj
          (seedPoint_slotContains P hc src hu _ i j)
      · exact ih _ h

theorem goodGrid_processCands {P : BridsonParams} (hc : 0 < P.c) :
    ∀ (cs : List Pt) (st : BState) (active : List Pt), GoodGrid P st.pts →
      GoodGrid P (processCands P st active cs).1.pts := by
  intro cs
  induction cs with
  | nil => intro st active h; exact h
  | cons cand cs ih =>
      intro st active h
      simp only [processCands]
      split
      · rename_i hv
        obtain ⟨hy, hx, hcont⟩ := valid_slotContains P hc hv
        exact ih _ _ (goodGrid_insert hc h hv hy hx hcont)
      · exact ih _ _ h

theorem goodGrid_drain {P : BridsonParams} (hc : 0 < P.c) (src : RandSrc) :
    ∀ (fuel : ℕ) (st : BState) (active : List Pt), GoodGrid P st.pts →
      GoodGrid P (drain P src fuel st active).pts := by
  intro fuel
  induction fuel with
  | zero =>
      intro st active h
      simp only [drain]
      split <;> exact h
  | succ fuel ih =>
      intro st active h
      cases active with
      | nil => simp only [drain]; exact h
      | cons base rest =>
          simp only [drain]
          exact ih _ _ (goodGrid_processCands hc _ _ _ h)

theorem goodGrid_outerCell {P : BridsonParams} (hc : 0 < P.c)
    {src : RandSrc} (hu : UnitSrc src) (st : BState) (ij : ℕ × ℕ)
    (hij : ij.1 < P.yStepsN ∧ ij.2 < P.xStepsN)
    (h : GoodGrid P st.pts) : GoodGrid P (outerCell P src st ij).pts := by
  simp only [outerCell]
  split
  · exact h
  · exact goodGrid_drain hc src _ _ _
      (goodGrid_seedTries hc hu hij.1 hij.2 _ _ h)

theorem goodGrid_foldl {P : BridsonParams} (hc : 0 < P.c)
    {src : RandSrc} (hu : UnitSrc src) :
    ∀ (cells : List (ℕ × ℕ)),
      (∀ ij ∈ cells, ij.1 < P.yStepsN ∧ ij.2 < P.xStepsN) →
      ∀ (st : BState), GoodGrid P st.pts →
        GoodGrid P (cells.foldl (outerCell P src) st).pts := by
  intro cells
  induction cells with
  | nil => intro _ st h; exact h
  | cons ij cells ih =>
      intro hmem st h
      simp only [List.foldl_cons]
      exact ih (fun a ha => hmem a (List.mem_cons_of_mem _ ha)) _
        (goodGrid_outerCell hc hu _ _ (hmem ij (List.mem_cons_self _ _)) h)

theorem goodGrid_run {P : BridsonParams} (hc : 0 < P.c)
    {src : RandSrc} (hu : UnitSrc src) :
    GoodGrid P (bridsonRun P src).pts := by
  unfold bridsonRun bridsonRunFrom
  refine goodGrid_foldl hc hu _ (allCells_mem_bounds P) _ ⟨?_, ?_⟩
  · intro i j p hp
    simp [BridsonInstance.init] at hp
  · intro a b p a' b' r hp hr hne
    simp [BridsonInstance.init] at hp

/-- C1: for every bounding range, every positive spacing
(`c = centre_spacing / √2 > 0`), an always-true validity predicate, and
every random stream whose cell fractions are genuine `random.random()`
values in `[0, 1)`, any two distinct points of the sequence returned by
`BridsonFillStrategy.generate_points()` are at Euclidean distance at least
`centre_spacing - 1 = √2 · c - 1`: the claimed minimum separation holds
with rounding tolerance ε = 1 unit. -/
theorem bridson_min_separation (P : BridsonParams) (src : RandSrc)
    (hc : 0 < P.c)
    (_hpred : ∀ x y, P.pred x y = true)
    (hu : ∀ n, 0 ≤ (src.cellU n).1 ∧ (src.cellU n).1 < 1 ∧
      0 ≤ (src.cellU n).2 ∧ (src.cellU n).2 < 1)
    (p q : Pt) (hp : p ∈ bridsonGeneratePoints P src)
    (hq : q ∈ bridsonGeneratePoints P src) (hne : p ≠ q) :
    Real.sqrt 2 * (P.c : ℝ) - 1 ≤ Real.sqrt ((distSq p q : ℤ) : ℝ) := by
  obtain ⟨i, j, hi, hj, hpij⟩ := mem_bridsonGeneratePoints.mp hp
  obtain ⟨i', j', hi', hj', hqij⟩ := mem_bridsonGeneratePoints.mp hq
  have hG : GoodGrid P (bridsonRun P src).pts := goodGrid_run hc hu
  have hslots : ¬(i = i' ∧ j = j') := by
    rintro ⟨rfl, rfl⟩
    rw [hpij] at hqij
    exact hne (Option.some_injective _ hqij)
  exact sep_real hc (hG.2 i j p i' j' q hpij hqij hslots)

/-- Witness for C1: a concrete two-point run with `c = 1`
(`centre_spacing = √2`), whose points `(0,0)` and `(2,0)` are at distance
`2 ≥ √2 · 1 - 1`. -/
theorem bridson_min_separation_witness :
    Real.sqrt 2 * ((1 : ℚ) : ℝ) - 1 ≤
      Real.sqrt ((distSq (0, 0) (2, 0) : ℤ) : ℝ) :=
  bridson_min_separation ⟨0, 4, 0, 1, fun _ _ => true, 1⟩
    ⟨fun _ => (0, 0), fun _ => (5, 5)⟩ (by norm_num)
    (fun x y => rfl) (fun n => by norm_num)
    (0, 0) (2, 0) (by decide) (by decide) (by decide)
